/-
Verification of the vector-showcase / podcast-tool repository.

Shallow embedding of the Python sources:
  * src/s3_vector/mm_index/validation.py      (MetadataLimiter, VectorDimensionManager)
  * src/s3_vector/s3_vector_ops.py            (ingest/create/delete operations)
  * src/s3_vector/mm_index/batch/batch_processor.py
  * src/s3_vector/mm_index/patterns/*.py      (PatternEngine, HybridPattern, SummarizePattern)
  * src/s3_vector/data/generate_dealer_database.py
  * src/aws-notebooklm/utils.py               (cleanup / pdf_to_text)

Python dictionaries are modelled as association lists in insertion order
(assignment updates in place, new keys append).  Python strings are modelled
as Lean strings / character lists; byte sizes use the UTF-8 size of each
character, matching len(s.encode("utf-8")).  Randomness and external
services are modelled as explicit oracle parameters.
-/
import Mathlib

namespace SpecV

/-! ### Byte lengths and dictionary primitives -/

/-- UTF-8 byte length of a character list: len("".join(cs).encode("utf-8")). -/
def byteLen (s : List Char) : Nat := (s.map Char.utf8Size).sum

/-- UTF-8 byte length of a string. -/
def strBytes (s : String) : Nat := byteLen s.data

/-- First value bound to key `k` in an association list (Python dict lookup). -/
def dlookup {α : Type} (k : String) : List (String × α) → Option α
  | [] => none
  | (k2, v) :: rest => if k2 = k then some v else dlookup k rest

/-- Keys of an association list, in insertion order. -/
def dkeys {α : Type} (d : List (String × α)) : List String := d.map Prod.fst

/-- Python dict assignment `d[k] = v`: overwrite in place if the key is
present, otherwise append at the end. -/
def dinsert {α : Type} (d : List (String × α)) (k : String) (v : α) : List (String × α) :=
  if (dlookup k d).isSome then d.map (fun p => if p.1 = k then (k, v) else p) else d ++ [(k, v)]

/-- Total serialized size of the values of a metadata dictionary, in UTF-8 bytes. -/
def byteTotal (d : List (String × String)) : Nat := (d.map (fun p => strBytes p.2)).sum

/-! ### MetadataLimiter._truncate_to_bytes (validation.py lines 366-394)

The Python binary search keeps integer bounds `left`, `right` with
`mid = (left + right) // 2`; `right` can reach `-1`, so the bounds are
embedded as `Int` (integer division agrees with Python floor division on
the nonnegative values that occur in every reachable loop state).  The
loop recurses on a fuel counter so that it is structurally recursive;
`truncate_to_bytes` supplies fuel exceeding the interval width, which the
binary search never exhausts (each iteration shrinks the interval). -/

/-- The `while left <= right` loop of `_truncate_to_bytes`. -/
def truncSearch (text : List Char) (maxBytes : Nat) :
    Nat → Int → Int → List Char → List Char
  | 0, _, _, result => result
  | fuel + 1, left, right, result =>
    if left ≤ right then
      let mid := (left + right) / 2
      let cand := text.take mid.toNat
      if byteLen cand ≤ maxBytes then
        truncSearch text maxBytes fuel (mid + 1) right cand
      else
        truncSearch text maxBytes fuel left (mid - 1) result
    else result

/-- Embeds `MetadataLimiter._truncate_to_bytes(text, max_bytes)`: truncate
`text` to fit within `maxBytes` UTF-8 bytes by binary search. -/
def truncate_to_bytes (text : List Char) (maxBytes : Nat) : List Char :=
  if byteLen text ≤ maxBytes then text
  else truncSearch text maxBytes (text.length + 2) 0 (text.length : Int) []

/-- String-level wrapper of `truncate_to_bytes`. -/
def truncStr (s : String) (maxBytes : Nat) : String := ⟨truncate_to_bytes s.data maxBytes⟩

/-- Length of the longest prefix of `text` that fits in `maxBytes` UTF-8 bytes. -/
def fitLen (text : List Char) (maxBytes : Nat) : Nat :=
  Nat.findGreatest (fun m => byteLen (text.take m) ≤ maxBytes) text.length

/-! ### MetadataLimiter.limit_metadata (validation.py lines 176-269)

Metadata values are modelled as strings (the code serializes every value
with `str(...)` before measuring it; for string values this is the
identity, and truncated values are stored as strings). -/

/-- Constructor arguments of `MetadataLimiter`. -/
structure MLCfg where
  maxTags : Nat
  maxValueBytes : Nat
  priorityTags : List String

/-- The loop state of `limit_metadata`: the dictionary built so far,
`remaining_slots`, and `current_total_bytes`. -/
structure MLState where
  limited : List (String × String)
  slots : Nat
  total : Nat

/-- Initial state of `limit_metadata`. -/
def mlInit (cfg : MLCfg) : MLState := ⟨[], cfg.maxTags, 0⟩

/-- One iteration of the first loop of `limit_metadata` (priority tags).
Python computes `available_bytes = max_value_bytes - current_total_bytes`
as a possibly negative int; since `available_bytes > 10` is then false and
natural subtraction also yields `0 > 10 = false`, `Nat` subtraction gives
the same branch. -/
def priStep (cfg : MLCfg) (md : List (String × String)) (st : MLState) (tag : String) :
    MLState :=
  match dlookup tag md with
  | none => st
  | some v =>
    if st.slots > 0 then
      let vb := strBytes v
      if st.total + vb ≤ cfg.maxValueBytes then
        ⟨dinsert st.limited tag v, st.slots - 1, st.total + vb⟩
      else
        let avail := cfg.maxValueBytes - st.total
        if avail > 10 then
          let tv := truncStr v (avail - 3) ++ "..."
          ⟨dinsert st.limited tag tv, st.slots - 1, st.total + strBytes tv⟩
        else st
    else st

/-- The first loop of `limit_metadata`: `for tag in self.priority_tags`. -/
def priPhase (cfg : MLCfg) (md : List (String × String)) (tags : List String) (st : MLState) :
    MLState :=
  tags.foldl (priStep cfg md) st

/-- The second loop of `limit_metadata`:
`for key, value in metadata.items()` with its two `break` statements. -/
def restPhase (cfg : MLCfg) (st : MLState) : List (String × String) → MLState
  | [] => st
  | (k, v) :: rest =>
    if (dlookup k st.limited).isNone ∧ st.slots > 0 then
      let vb := strBytes v
      if st.total + vb ≤ cfg.maxValueBytes then
        restPhase cfg ⟨dinsert st.limited k v, st.slots - 1, st.total + vb⟩ rest
      else
        let avail := cfg.maxValueBytes - st.total
        if avail > 10 then
          ⟨dinsert st.limited k (truncStr v (avail - 3) ++ "..."), st.slots - 1,
            st.total + strBytes (truncStr v (avail - 3) ++ "...")⟩
        else st
    else restPhase cfg st rest

/-- Embeds `MetadataLimiter.limit_metadata(metadata)`. -/
def limit_metadata (cfg : MLCfg) (md : List (String × String)) : List (String × String) :=
  if md = [] then []
  else (restPhase cfg (priPhase cfg md cfg.priorityTags (mlInit cfg)) md).limited

/-! ### VectorDimensionManager (validation.py lines 19-115)

Vector elements are rationals; the cast `float(np.float32(x))` is an
uninterpreted elementwise function `f32` supplied as a parameter, so that
every theorem holds for the actual 32-bit rounding function. -/

/-- `VectorConfig` (validation.py lines 19-28). -/
structure VectorConfig where
  dimension : Nat
  dataType : String
  distanceMetric : String

/-- `VectorConfig.validate`: the dimension must be one supported by AWS. -/
def VectorConfig.validate (c : VectorConfig) : Bool :=
  c.dimension = 256 ∨ c.dimension = 384 ∨ c.dimension = 1024

/-- `VectorDimensionManager.__init__`: returns the target dimension, or
`none` where Python raises `ValueError` for an unsupported dimension. -/
def mkDimensionManager (targetDimension : Nat) : Option Nat :=
  if (VectorConfig.mk targetDimension "float32" "cosine").validate then some targetDimension
  else none

/-- `VectorDimensionManager.ensure_float32`: cast every element. -/
def ensure_float32 (f32 : ℚ → ℚ) (vector : List ℚ) : List ℚ := vector.map f32

/-- Embeds `VectorDimensionManager.validate_and_transform(vector)`.
`np.array(vector, dtype=np.float32)` casts every element on entry;
`np.pad(..., constant_values=0.0)` pads with the float32 zero `f32 0`. -/
def validate_and_transform (f32 : ℚ → ℚ) (targetDimension : Nat) (vector : List ℚ) : List ℚ :=
  let arr := vector.map f32
  if arr.length = targetDimension then
    ensure_float32 f32 arr
  else if arr.length > targetDimension then
    ensure_float32 f32 (arr.take targetDimension)
  else
    ensure_float32 f32 (arr ++ List.replicate (targetDimension - arr.length) (f32 0))

/-! ### s3_vector_ops.py: metadata validation and bulk ingestion

Each record is a Python dict with keys `id`, `vector`, `metadata`; records
are modelled as carrying all three (the code reads `vector_item['id']`
directly during batching, and `vector_item.get('id', 'unknown')` during
validation — identical on such records).  The S3 Vectors client is an
oracle: `putErr i` is the error message of the `i`-th `put_vectors` call,
or `none` when that call succeeds. -/

/-- One input record of `ingest_vectors`. -/
structure VectorItem where
  id : String
  vector : List ℚ
  metadata : List (String × String)
deriving DecidableEq

/-- The fields of `MetadataLimitExceededError` (s3_vector_ops.py lines 15-25). -/
structure MetadataLimitError where
  vectorId : String
  actualCount : Nat
  maxAllowed : Nat
deriving DecidableEq

/-- The exception message built by `MetadataLimitExceededError.__init__`. -/
def MetadataLimitError.message (e : MetadataLimitError) : String :=
  "Vector \x27" ++ e.vectorId ++ "\x27 has " ++ toString e.actualCount ++
    " metadata tags, but maximum allowed is " ++ toString e.maxAllowed

/-- Embeds `validate_metadata_limits(metadata, max_tags, vector_id)`
(restricted to dict metadata; the `TypeError` branch for non-dict values
is outside the model). -/
def validate_metadata_limits (metadata : List (String × String)) (maxTags : Nat)
    (vectorId : String) : Except MetadataLimitError Unit :=
  if metadata.length > maxTags then
    .error ⟨vectorId, metadata.length, maxTags⟩
  else
    .ok ()

/-- The validation loop at the top of `ingest_vectors`: first failing
record wins. -/
def validateAll (maxTags : Nat) : List VectorItem → Except MetadataLimitError Unit
  | [] => .ok ()
  | item :: rest =>
    match validate_metadata_limits item.metadata maxTags item.id with
    | .error e => .error e
    | .ok _ => validateAll maxTags rest

/-- One entry of a `put_vectors` request body. -/
structure VEntry where
  key : String
  data : List ℚ
  metadata : List (String × String)

/-- The summary dictionary returned by `ingest_vectors`. -/
structure IngestSummary where
  totalVectors : Nat
  successfulIngestions : Nat
  failedIngestions : Nat
  successRate : ℚ
  errors : List String
  ingestedVectorIds : List String

/-- The batch indices `range(0, n, batch_size)` of the ingestion loop. -/
def batchStarts (n batchSize : Nat) : List Nat :=
  (List.range ((n + batchSize - 1) / batchSize)).map (· * batchSize)

/-- The batch loop of `ingest_vectors`: returns the trace of `put_vectors`
request bodies together with the accumulated counters. -/
def ingestLoop (putErr : Nat → Option String) (items : List VectorItem) (batchSize : Nat) :
    List (List VEntry) × Nat × Nat × List String × List String :=
  (batchStarts items.length batchSize).foldl
    (fun acc i =>
      let (calls, succ, fail, errs, ids) := acc
      let batch := (items.drop i).take batchSize
      let batchVectors := batch.map (fun it => VEntry.mk it.id it.vector it.metadata)
      match putErr calls.length with
      | none =>
          (calls ++ [batchVectors], succ + batch.length, fail, errs,
            ids ++ batch.map VectorItem.id)
      | some msg =>
          (calls ++ [batchVectors], succ, fail + batch.length,
            errs ++ ["Batch " ++ toString (i / batchSize + 1) ++ " failed: " ++ msg], ids))
    ([], 0, 0, [], [])

/-- Embeds `ingest_vectors(...)`: the first component is the trace of
`put_vectors` network calls actually issued, the second the outcome
(`.error` where Python raises `MetadataLimitExceededError`). -/
def ingest_vectors (putErr : Nat → Option String) (maxTags : Nat)
    (items : List VectorItem) (batchSize : Nat) :
    List (List VEntry) × Except MetadataLimitError IngestSummary :=
  match validateAll maxTags items with
  | .error e => ([], .error e)
  | .ok _ =>
    let (calls, succ, fail, errs, ids) := ingestLoop putErr items batchSize
    let total := items.length
    let rate : ℚ := if total > 0 then (succ : ℚ) / (total : ℚ) * 100 else 0
    (calls, .ok ⟨total, succ, fail, rate, errs, ids⟩)

/-! ### s3_vector_ops.py: bucket/index lifecycle (C5) and delete_vectors (C7)

The AWS S3 Vectors service itself is not part of the repository; it is
modelled as a state machine over the set of existing buckets and indexes,
with the response conventions the wrappers branch on: `get_vector_bucket`
of a missing bucket and `delete_vector_bucket` of a missing bucket fail
with code `NoSuchBucket`, `create_vector_bucket`/`create_index` of an
existing resource fail with code `ConflictException`, and `delete_index`
of a missing index fails with code `NoSuchIndex`. -/

/-- The live resources of the modelled S3 Vectors service. -/
structure SvcState where
  buckets : List String
  indexes : List (String × String)
deriving DecidableEq

/-- Service model: `get_vector_bucket`. -/
def svcGetBucket (st : SvcState) (b : String) : Except String Unit :=
  if b ∈ st.buckets then .ok () else .error "NoSuchBucket"

/-- Service model: `create_vector_bucket`. -/
def svcCreateBucket (st : SvcState) (b : String) : Except String Unit × SvcState :=
  if b ∈ st.buckets then (.error "ConflictException", st)
  else (.ok (), ⟨b :: st.buckets, st.indexes⟩)

/-- Service model: `create_index`. -/
def svcCreateIndex (st : SvcState) (b i : String) : Except String Unit × SvcState :=
  if (b, i) ∈ st.indexes then (.error "ConflictException", st)
  else (.ok (), ⟨st.buckets, (b, i) :: st.indexes⟩)

/-- Service model: `delete_index`. -/
def svcDeleteIndex (st : SvcState) (b i : String) : Except String Unit × SvcState :=
  if (b, i) ∈ st.indexes then (.ok (), ⟨st.buckets, st.indexes.filter (· ≠ (b, i))⟩)
  else (.error "NoSuchIndex", st)

/-- Service model: `delete_vector_bucket`. -/
def svcDeleteBucket (st : SvcState) (b : String) : Except String Unit × SvcState :=
  if b ∈ st.buckets then (.ok (), ⟨st.buckets.filter (· ≠ b), st.indexes⟩)
  else (.error "NoSuchBucket", st)

/-- Embeds `create_vector_bucket(client, bucket_name)` (lines 54-85):
existence check first, then create, with `ConflictException` treated as
success; any other error is re-raised (`.error`). -/
def create_vector_bucket (st : SvcState) (bucketName : String) :
    Except String (String × SvcState) :=
  match svcGetBucket st bucketName with
  | .ok _ => .ok (bucketName, st)
  | .error code =>
    if code ≠ "NoSuchBucket" then .error code
    else
      match svcCreateBucket st bucketName with
      | (.ok _, st2) => .ok (bucketName, st2)
      | (.error code2, st2) =>
        if code2 = "ConflictException" then .ok (bucketName, st2) else .error code2

/-- Embeds `create_vector_index(client, bucket_name, index_name, ...)`
(lines 88-117): `ConflictException` is treated as success. -/
def create_vector_index (st : SvcState) (bucketName indexName : String) :
    Except String (String × SvcState) :=
  match svcCreateIndex st bucketName indexName with
  | (.ok _, st2) => .ok (indexName, st2)
  | (.error code, st2) =>
    if code = "ConflictException" then .ok (indexName, st2) else .error code

/-- Embeds `delete_index(client, bucket_name, index_name)` (lines 349-378):
returns `True` on success and on `NoSuchIndex`, `False` on any other
client error. -/
def delete_index (st : SvcState) (bucketName indexName : String) : Bool × SvcState :=
  match svcDeleteIndex st bucketName indexName with
  | (.ok _, st2) => (true, st2)
  | (.error code, st2) => (code = "NoSuchIndex", st2)

/-- Embeds `delete_vector_bucket(client, bucket_name)` (lines 533-557):
returns `True` on success and on `NoSuchBucket`; re-raises anything else. -/
def delete_vector_bucket (st : SvcState) (bucketName : String) :
    Except String (Bool × SvcState) :=
  match svcDeleteBucket st bucketName with
  | (.ok _, st2) => .ok (true, st2)
  | (.error code, st2) =>
    if code = "NoSuchBucket" then .ok (true, st2) else .error code

/-- Iterate `create_vector_bucket` `n + 1` times, threading the state. -/
def iterCreateBucket (st : SvcState) (b : String) : Nat → Except String (String × SvcState)
  | 0 => create_vector_bucket st b
  | n + 1 =>
    match create_vector_bucket st b with
    | .error e => .error e
    | .ok (_, st2) => iterCreateBucket st2 b n

/-- Iterate `create_vector_index` `n + 1` times, threading the state. -/
def iterCreateIndex (st : SvcState) (b i : String) : Nat → Except String (String × SvcState)
  | 0 => create_vector_index st b i
  | n + 1 =>
    match create_vector_index st b i with
    | .error e => .error e
    | .ok (_, st2) => iterCreateIndex st2 b i n

/-- Iterate `delete_index` `n + 1` times, threading the state; the result
is the conjunction of all returned booleans. -/
def iterDeleteIndex (st : SvcState) (b i : String) : Nat → Bool × SvcState
  | 0 => delete_index st b i
  | n + 1 =>
    let (r, st2) := delete_index st b i
    let (r2, st3) := iterDeleteIndex st2 b i n
    (r && r2, st3)

/-- Iterate `delete_vector_bucket` `n + 1` times, threading the state. -/
def iterDeleteBucket (st : SvcState) (b : String) : Nat → Except String (Bool × SvcState)
  | 0 => delete_vector_bucket st b
  | n + 1 =>
    match delete_vector_bucket st b with
    | .error e => .error e
    | .ok (r, st2) =>
      match iterDeleteBucket st2 b n with
      | .error e => .error e
      | .ok (r2, st3) => .ok (r && r2, st3)

/-- The summary dictionary returned by `delete_vectors`. -/
structure DeleteSummary where
  totalRequested : Nat
  successfulDeletions : Nat
  failedDeletions : Nat
  successRate : ℚ
  errors : List String
deriving DecidableEq

/-- Embeds `delete_vectors(client, bucket, index, vector_ids)` (lines
222-251).  `deleteErr` is the outcome of the underlying
`client.delete_vectors` call: `none` on success, `some msg` when it raises
with message `msg`.  The `try/except Exception` converts every failure
into counters; the function never re-raises. -/
def delete_vectors (deleteErr : Option String) (vectorIds : List String) : DeleteSummary :=
  let (succ, fail, errs) :=
    match deleteErr with
    | none => (vectorIds.length, 0, ([] : List String))
    | some msg => (0, vectorIds.length, ["Delete operation failed: " ++ msg])
  let total := vectorIds.length
  let rate : ℚ := if total > 0 then (succ : ℚ) / (total : ℚ) * 100 else 0
  ⟨total, succ, fail, rate, errs⟩

/-! ### BatchProcessor.process_batch (batch_processor.py lines 56-255)

`uuid.uuid4()` is an oracle stream `uuids`, consumed in call order: the
call at line 83 produces `uuids 0` (the batch id), and the `i`-th item of
the batch — whether processed sequentially or submitted to the worker
pool — produces `uuids (i + 1)`.  Per-item pattern processing is the
oracle `procItem`: `none` where `pattern_engine.process` raises, otherwise
the resulting vector and enriched metadata.  The chunk-level
`vector_store.ingest_vectors` call is the oracle `storeResult`, giving for
each chunk either an exception (`none`) or the reported
`successful_ingestions` count. -/

/-- Result of processing one chunk: `(doc_ids, successful, failed)`. -/
structure ChunkResult where
  docIds : List String
  successful : Nat
  failed : Nat

/-- Embeds `_process_chunk_sequential` for the chunk of global item
indices `[offset, offset + len)`; the per-item loop appends a fresh
document id before anything in the `try` block can raise. -/
def processChunkSequential (uuids : Nat → String) (procItem : Nat → Option (List ℚ × List (String × String)))
    (storeResult : Nat → Option Nat) (chunkIdx : Nat) (offset len : Nat) : ChunkResult :=
  let idxs := (List.range len).map (· + offset)
  let docIds := idxs.map (fun i => uuids (i + 1))
  let processed := idxs.filterMap (fun i => (procItem i).map (fun r => (i, r)))
  let okCount := processed.length
  let failCount := len - okCount
  if processed.length > 0 then
    match storeResult chunkIdx with
    | some _ => ⟨docIds, okCount, failCount⟩
    | none => ⟨docIds, 0, len⟩
  else ⟨docIds, okCount, failCount⟩

/-- Embeds `_process_chunk_parallel`: document ids are generated in the
submission loop, one per item in submission order, before any worker runs;
success/failure accounting mirrors lines 297-328. -/
def processChunkParallel (uuids : Nat → String) (procItem : Nat → Option (List ℚ × List (String × String)))
    (storeResult : Nat → Option Nat) (chunkIdx : Nat) (offset len : Nat) : ChunkResult :=
  let idxs := (List.range len).map (· + offset)
  let docIds := idxs.map (fun i => uuids (i + 1))
  let processed := idxs.filterMap (fun i => (procItem i).map (fun r => (i, r)))
  let okCount := processed.length
  let failCount := len - okCount
  if processed.length > 0 then
    match storeResult chunkIdx with
    | some actual =>
        let extra := processed.length - actual
        ⟨docIds, okCount - extra, failCount + extra⟩
    | none => ⟨docIds, 0, len⟩
  else ⟨docIds, okCount, failCount⟩

/-- `_process_chunk`: dispatch between the parallel and sequential paths. -/
def processChunk (enableParallel : Bool) (uuids : Nat → String)
    (procItem : Nat → Option (List ℚ × List (String × String)))
    (storeResult : Nat → Option Nat) (chunkIdx : Nat) (offset len : Nat) : ChunkResult :=
  if enableParallel ∧ len > 1 then
    processChunkParallel uuids procItem storeResult chunkIdx offset len
  else
    processChunkSequential uuids procItem storeResult chunkIdx offset len

/-- Embeds `BatchProcessor.process_batch(data_list, pattern, index_name,
metadata_list)`.  `n` is `len(data_list)`; a `metadata_list` of the wrong
length raises `ValueError` (`.error`), as does an empty `data_list`. -/
def process_batch (enableParallel : Bool) (batchSize : Nat) (uuids : Nat → String)
    (procItem : Nat → Option (List ℚ × List (String × String)))
    (storeResult : Nat → Option Nat) (n : Nat) (metadataLen : Option Nat) :
    Except String (List String × Nat × Nat) :=
  if n = 0 then .error "data_list cannot be empty"
  else if metadataLen.any (fun m => m ≠ 0 ∧ m ≠ n) then
    .error "metadata_list length must match data_list length"
  else
    let starts := batchStarts n batchSize
    let results := starts.map (fun i =>
      processChunk enableParallel uuids procItem storeResult (i / batchSize) i
        (min batchSize (n - i)))
    .ok ((results.map ChunkResult.docIds).flatten,
      (results.map ChunkResult.successful).sum,
      (results.map ChunkResult.failed).sum)

/-! ### Pattern strategies and PatternEngine (patterns/*.py)

Input data dictionaries map string keys to Python values; only the value
shapes the patterns inspect are modelled.  Calls to the embedding model,
the object store and the text LLM are recorded in an effect trace, so
"raises before any model/store call" is the statement that the trace of
the failing run is empty. -/

/-- A Python value as inspected by the pattern code. -/
inductive PyVal where
  | str (s : String)
  | imgPath (p : String)
  | imgBytes (len : Nat)
  | other
deriving DecidableEq

/-- An input data dictionary. -/
abbrev PyDict := List (String × PyVal)

/-- One call to an external model or store. -/
inductive Eff where
  | embedCall (text : String)
  | storeCall (key : String)
  | llmCall (text : String)
deriving DecidableEq

/-- The whitespace characters of `str.strip()` / `\s` (ASCII range; the
repository's inputs are ASCII). -/
def isPySpace (c : Char) : Bool :=
  c = ' ' ∨ c = '\t' ∨ c = '\n' ∨ c = '\x0d' ∨ c = '\x0b' ∨ c = '\x0c'

/-- Python `s.strip()`. -/
def pyStrip (s : List Char) : List Char :=
  ((s.dropWhile isPySpace).reverse.dropWhile isPySpace).reverse

/-- Truthiness of `text.strip()`: true iff some non-whitespace character
remains. -/
def stripTruthy (s : String) : Bool := pyStrip s.data ≠ []

/-- `HybridPattern._is_valid_image` (hybrid_pattern.py lines 82-105). -/
def is_valid_image : PyVal → Bool
  | .str _ => false
  | .imgPath p => p.length > 0
  | .imgBytes n => n > 0
  | .other => false

/-- `HybridPattern.validate_data` (hybrid_pattern.py lines 56-80). -/
def hybridValidate (data : PyDict) : Bool :=
  match dlookup "text" data with
  | none => false
  | some v =>
    match v with
    | .str t =>
      if ¬ stripTruthy t then false
      else
        match dlookup "image" data with
        | none => true
        | some img => is_valid_image img
    | _ => false

/-- `SummarizePattern.validate_data` (summarize_pattern.py lines 56-85);
`min_text_length` defaults to 1000, `llmAvailable` models `self.llm`
being non-null. -/
def summarizeValidate (minTextLength : Nat) (llmAvailable : Bool) (data : PyDict) : Bool :=
  match dlookup "text" data with
  | none => false
  | some v =>
    match v with
    | .str t =>
      if ¬ stripTruthy t then false
      else if t.length < minTextLength then false
      else llmAvailable
    | _ => false

/-- A pattern strategy as consumed by `PatternEngine.process`: its name,
declared key lists, `validate_data`, and `process` (returning the effect
trace alongside the outcome). -/
structure Pat where
  name : String
  requiredKeys : List String
  optionalKeys : List String
  validate : PyDict → Bool
  run : PyDict → List (String × String) →
    List Eff × Except String (List ℚ × List (String × String))

/-- Python `repr` of a list of strings, as interpolated into f-strings. -/
def pyReprStrList (xs : List String) : String :=
  "[" ++ String.intercalate ", " (xs.map (fun s => "\x27" ++ s ++ "\x27")) ++ "]"

/-- The `ValueError` message of `PatternEngine.process` on validation
failure (pattern_engine.py lines 223-226). -/
def engineValidationMsg (p : Pat) : String :=
  "Data validation failed for pattern \x27" ++ p.name ++ "\x27. Required keys: " ++
    pyReprStrList p.requiredKeys ++ ", Optional keys: " ++ pyReprStrList p.optionalKeys

/-- Embeds `PatternEngine.process(data, pattern_name, metadata)` for an
already-registered pattern `p`: validation failure raises before
`pattern.process` runs; on success the engine appends its own metadata. -/
def engineProcess (registeredPatterns : List String) (p : Pat) (data : PyDict)
    (metadata : List (String × String)) :
    List Eff × Except String (List ℚ × List (String × String)) :=
  if ¬ p.validate data then
    ([], .error (engineValidationMsg p))
  else
    match p.run data metadata with
    | (tr, .error e) => (tr, .error ("Pattern processing failed: " ++ e))
    | (tr, .ok (emb, md)) =>
      (tr, .ok (emb, dinsert (dinsert md "engine_version" "1.0")
        "available_patterns" (pyReprStrList registeredPatterns)))

/-- `HybridPattern._validate_required_keys` (base.py lines 133-150)
specialised to required keys `['text']`. -/
def hybridRequiredCheck (data : PyDict) : Except String Unit :=
  if (dlookup "text" data).isNone then
    .error ("Pattern \x27hybrid\x27 requires keys [\x27text\x27], but missing: [\x27text\x27]")
  else .ok ()

/-- Embeds `HybridPattern.process(data, metadata)` (hybrid_pattern.py
lines 159-238) with the effect trace.  `embed` is the embedding model
(`generate_embeddings`), `storeUri` the object store (`store_object`),
`docId` the id drawn when metadata has no `doc_id`.  Metadata enrichment
is tracked only as far as the claims need (the trace and outcome shape). -/
def hybridProcess (embed : String → List ℚ) (storeUri : String → String) (docId : String)
    (data : PyDict) (metadata : List (String × String)) :
    List Eff × Except String (List ℚ × List (String × String)) :=
  match hybridRequiredCheck data with
  | .error e => ([], .error e)
  | .ok _ =>
    if ¬ hybridValidate data then
      ([], .error "Invalid hybrid data: text must be non-empty string, image must be valid if provided")
    else
      match dlookup "text" data with
      | some (.str t) =>
        let emb := embed t
        if emb = [] then ([Eff.embedCall t], .error "Embedding model returned empty embeddings")
        else
          match dlookup "image" data with
          | none => ([Eff.embedCall t], .ok (emb, metadata))
          | some _ =>
            let key := "images/" ++ docId ++ ".jpg"
            ([Eff.embedCall t, Eff.storeCall key],
              .ok (emb, dinsert metadata "__img_ref" (storeUri key)))
      | _ => ([], .error "unreachable")

/-- The hybrid pattern as registered in the engine. -/
def hybridPat (embed : String → List ℚ) (storeUri : String → String) (docId : String) : Pat :=
  ⟨"hybrid", ["text"], ["image"], hybridValidate, hybridProcess embed storeUri docId⟩

/-- Embeds `SummarizePattern.process` far enough to record its LLM and
store calls (summarize_pattern.py lines 122-190). -/
def summarizeProcess (summarize : String → String) (embed : String → List ℚ)
    (storeUri : String → String) (docId : String) (data : PyDict)
    (metadata : List (String × String)) :
    List Eff × Except String (List ℚ × List (String × String)) :=
  match dlookup "text" data with
  | some (.str t) =>
    let s := summarize t
    if ¬ stripTruthy s then ([Eff.llmCall t], .error "Generated summary is empty")
    else
      let key := "original_texts/" ++ docId ++ ".txt"
      ([Eff.llmCall t, Eff.embedCall s, Eff.storeCall key],
        .ok (embed s, dinsert metadata "__text_ref" (storeUri key)))
  | _ => ([], .error "KeyError: text")

/-- The summarize pattern as registered in the engine (LLM available,
`min_text_length = 1000`). -/
def summarizePat (summarize : String → String) (embed : String → List ℚ)
    (storeUri : String → String) (docId : String) : Pat :=
  ⟨"summarize", ["text"], [], summarizeValidate 1000 true,
    summarizeProcess summarize embed storeUri docId⟩

/-! ### DealerDatabaseGenerator (generate_dealer_database.py)

All `random.*` draws are supplied by a per-index choice oracle; the claims
concern only the key scheme and the record fields, which do not depend on
the drawn values. -/

/-- A value of a dealer record. -/
inductive DVal where
  | s (v : String)
  | b (v : Bool)
  | n (v : Nat)
  | ls (v : List String)
  | contact (phone address hours email : String)
deriving DecidableEq

/-- The random draws used by `generate_dealer` for one record. -/
structure DealerChoice where
  region : String
  city : String
  dealerName : String
  manufacturerGroup : List String
  services : List String
  specialties : List String
  certified : Bool
  phone : String
  address : String
  hours : String
  email : String
  yearEstablished : Nat

/-- Little-endian decimal digits with explicit fuel (kernel-computable;
fuel `n + 1` always suffices since the argument strictly shrinks). -/
def natDigitsRev : Nat → Nat → List Nat
  | 0, _ => []
  | fuel + 1, n => if n = 0 then [] else n % 10 :: natDigitsRev fuel (n / 10)

/-- Big-endian decimal digits of `n` (empty for 0). -/
def decDigits (n : Nat) : List Nat := (natDigitsRev (n + 1) n).reverse

/-- `generate_dealer_id(index)`: `f"DEALER-{index:03d}"`; decimal digits,
zero-padded on the left to at least three. -/
def pad3 (n : Nat) : List Nat :=
  let ds := decDigits n
  List.replicate (3 - ds.length) 0 ++ ds

/-- Render one decimal digit. -/
def digitCh (d : Nat) : Char := Char.ofNat (48 + d)

/-- `generate_dealer_id(index)` as a string. -/
def generate_dealer_id (index : Nat) : String :=
  "DEALER-" ++ ⟨(pad3 index).map digitCh⟩

/-- `self.appointment_slots` (line 182), copied into every record. -/
def appointmentSlots : List String := ["09:00", "10:30", "13:00", "14:30", "16:00"]

/-- `extract_state_from_city(city)` (lines 212-216). -/
def extract_state_from_city (city : String) : String :=
  match city.splitOn ", " with
  | _ :: s :: _ => s
  | _ => "Unknown"

/-- `extract_city_name(city)` (lines 218-222). -/
def extract_city_name (city : String) : String :=
  match city.splitOn ", " with
  | c :: _ :: _ => c
  | _ => city

/-- Embeds `generate_dealer(index)` (lines 236-271): the dict literal of
one dealer record, with the oracle supplying every random draw. -/
def generate_dealer (oracle : Nat → DealerChoice) (index : Nat) : List (String × DVal) :=
  let c := oracle index
  [("name", .s c.dealerName),
   ("region", .s c.region),
   ("location", .s c.city),
   ("state", .s (extract_state_from_city c.city)),
   ("city", .s (extract_city_name c.city)),
   ("manufacturer_specialties", .ls c.manufacturerGroup),
   ("services", .ls c.services),
   ("certified", .b c.certified),
   ("contact", .contact c.phone c.address c.hours c.email),
   ("appointment_slots", .ls appointmentSlots),
   ("year_established", .n c.yearEstablished),
   ("specialties", .ls c.specialties)]

/-- Embeds `generate_database(count)` (lines 273-287): a dict keyed by
`generate_dealer_id(i)` for `i in range(1, count + 1)`. -/
def generate_database (oracle : Nat → DealerChoice) (count : Nat) :
    List (String × List (String × DVal)) :=
  (List.range' 1 count).foldl
    (fun db i => dinsert db (generate_dealer_id i) (generate_dealer oracle i)) []

/-! ### cleanup (aws-notebooklm/utils.py lines 26-32)

Each `re.sub` of `cleanup` is embedded operationally: non-overlapping
leftmost matches, greedy quantifiers.  Character classes `\w`, `\s`,
`[0-9A-Fa-f]` are modelled over the ASCII range the repository's inputs
use. -/

/-- Auxiliary: dropping a prefix never lengthens a list. -/
theorem length_dropWhile_le (p : Char → Bool) (l : List Char) :
    (l.dropWhile p).length ≤ l.length := by
  induction l with
  | nil => simp
  | cons c rest ih =>
    rw [List.dropWhile_cons]
    split
    · exact Nat.le_trans ih (Nat.le_succ _)
    · simp

/-- Auxiliary: taking a prefix never lengthens a list. -/
theorem length_takeWhile_le (p : Char → Bool) (l : List Char) :
    (l.takeWhile p).length ≤ l.length := by
  induction l with
  | nil => simp
  | cons c rest ih =>
    rw [List.takeWhile_cons]
    split
    · simpa using ih
    · simp

/-- Auxiliary: `takeWhile` is strictly shorter when some element fails the
predicate. -/
theorem length_takeWhile_lt (p : Char → Bool) (l : List Char)
    (h : ∃ x ∈ l, ¬ p x) : (l.takeWhile p).length < l.length := by
  induction l with
  | nil => simp at h
  | cons c rest ih =>
    rw [List.takeWhile_cons]
    by_cases hc : p c
    · simp only [hc, if_true, List.length_cons]
      have hr : ∃ x ∈ rest, ¬ p x := by
        obtain ⟨x, hx, hpx⟩ := h
        rcases List.mem_cons.mp hx with rfl | hx2
        · exact absurd hc hpx
        · exact ⟨x, hx2, hpx⟩
      exact Nat.succ_lt_succ (ih hr)
    · simp [hc]

/-- `\w` (ASCII range): letters, digits, underscore. -/
def isWordChar (c : Char) : Bool := c.isAlphanum ∨ c = '_'

/-- `[0-9A-Fa-f]`. -/
def isHexDigit (c : Char) : Bool :=
  c.isDigit ∨ ('A' ≤ c ∧ c ≤ 'F') ∨ ('a' ≤ c ∧ c ≤ 'f')

/-- `re.sub(r"(\w+)-\n(\w+)", r"\1\2", text)`: at each leftmost match the
greedy `\w+` must reach the end of the current word run (backtracking a
shorter `\w+` would put a word character where `-` is required), so a
match is a maximal word run followed by `-`, `\n`, and a word character;
the replacement keeps both word runs and scanning resumes after the
second run.  The scan recurses on a fuel counter (each step strictly
shrinks the list, so fuel exceeding the length is never exhausted). -/
def joinHyphenBreaksF : Nat → List Char → List Char
  | 0, l => l
  | _ + 1, [] => []
  | fuel + 1, c :: rest =>
    if isWordChar c then
      match (c :: rest).dropWhile isWordChar with
      | '-' :: '\n' :: d :: rest3 =>
        if isWordChar d then
          (c :: rest).takeWhile isWordChar ++ (d :: rest3).takeWhile isWordChar ++
            joinHyphenBreaksF fuel ((d :: rest3).dropWhile isWordChar)
        else
          (c :: rest).takeWhile isWordChar ++ joinHyphenBreaksF fuel ('-' :: '\n' :: d :: rest3)
      | other => (c :: rest).takeWhile isWordChar ++ joinHyphenBreaksF fuel other
    else c :: joinHyphenBreaksF fuel rest

/-- The first substitution pass of `cleanup`. -/
def joinHyphenBreaks (l : List Char) : List Char := joinHyphenBreaksF (l.length + 1) l

/-- The context condition under which `re.sub(r"(?<!\n\s)\n(?!\s\n)", " ", ...)`
keeps a newline at position `i`: the two characters just before are
newline-then-whitespace, or the two just after are whitespace-then-newline. -/
def nlKept (s : List Char) (i : Nat) : Bool :=
  (decide (2 ≤ i) && decide (s.getD (i - 2) ' ' = '\n') && isPySpace (s.getD (i - 1) ' ')) ||
  (decide (i + 2 < s.length) && isPySpace (s.getD (i + 1) ' ') &&
    decide (s.getD (i + 2) ' ' = '\n'))

/-- `re.sub(r"(?<!\n\s)\n(?!\s\n)", " ", text)`: the pattern consumes a
single character and its lookarounds consume nothing, so the substitution
replaces exactly the newlines whose original-string context fails both
lookaround tests. -/
def collapseNewlines (s : List Char) : List Char :=
  (List.range s.length).map (fun i =>
    let c := s.getD i ' '
    if c = '\n' ∧ ¬ nlKept s i then ' ' else c)

/-- `re.sub(r"\n\s*\n", "\n\n", text)`: a leftmost match starts at a
newline whose following maximal whitespace run contains another newline;
greedy `\s*` extends to the last such newline, the whole match becomes
`"\n\n"`, and scanning resumes after it.  Fuel-structured as above. -/
def normalizeBlankRunsF : Nat → List Char → List Char
  | 0, l => l
  | _ + 1, [] => []
  | fuel + 1, c :: rest =>
    if c = '\n' then
      if '\n' ∈ rest.takeWhile isPySpace then
        '\n' :: '\n' :: normalizeBlankRunsF fuel
          (((rest.takeWhile isPySpace).reverse.takeWhile (· ≠ '\n')).reverse ++
            rest.drop (rest.takeWhile isPySpace).length)
      else c :: normalizeBlankRunsF fuel rest
    else c :: normalizeBlankRunsF fuel rest

/-- The third substitution pass of `cleanup`. -/
def normalizeBlankRuns (l : List Char) : List Char := normalizeBlankRunsF (l.length + 1) l

/-- `re.sub(r'[/X]', "", text)`: `[/X]` is a character class, so every
`/` and every `X` is removed individually. -/
def stripSlashX : List Char → List Char
  | [] => []
  | c :: rest => if c = '/' ∨ c = 'X' then stripSlashX rest else c :: stripSlashX rest

/-- `re.sub(r"(\\u[0-9A-Fa-f]+)", " ", text)`: a literal backslash, `u`,
and a greedy nonempty run of hex digits become a single space.
Fuel-structured as above. -/
def stripUEscapesF : Nat → List Char → List Char
  | 0, l => l
  | _ + 1, [] => []
  | fuel + 1, c :: rest =>
    if c = '\\' then
      match rest with
      | 'u' :: ds =>
        if (ds.takeWhile isHexDigit).length = 0 then c :: stripUEscapesF fuel ('u' :: ds)
        else ' ' :: stripUEscapesF fuel (ds.drop (ds.takeWhile isHexDigit).length)
      | other => c :: stripUEscapesF fuel other
    else c :: stripUEscapesF fuel rest

/-- The fifth substitution pass of `cleanup`. -/
def stripUEscapes (l : List Char) : List Char := stripUEscapesF (l.length + 1) l

/-- Embeds `cleanup(text)` (utils.py lines 26-32): the five `re.sub`
passes in order, with `text.strip()` applied before the newline collapse. -/
def cleanup (s : String) : String :=
  ⟨stripUEscapes (stripSlashX (normalizeBlankRuns (collapseNewlines
    (pyStrip (joinHyphenBreaks s.data)))))⟩

/-- `delete_vector_bucket` against an arbitrary client response (lines
547-557): `NoSuchBucket` is converted to `True`, anything else re-raised. -/
def delete_vector_bucket_onResp (resp : Except String Unit) : Except String Bool :=
  match resp with
  | .ok _ => .ok true
  | .error code => if code = "NoSuchBucket" then .ok true else .error code

/-! ## Theorems

### Dictionary lemmas -/

theorem dlookup_isSome_iff {α : Type} (k : String) (d : List (String × α)) :
    (dlookup k d).isSome ↔ k ∈ dkeys d := by
  induction d with
  | nil => simp [dlookup, dkeys]
  | cons p rest ih =>
    obtain ⟨k2, v⟩ := p
    by_cases h : k2 = k <;> simp [dlookup, dkeys, h, ih]
    · exact fun a => absurd a.symm h

theorem dlookup_eq_none_iff {α : Type} (k : String) (d : List (String × α)) :
    dlookup k d = none ↔ k ∉ dkeys d := by
  rw [← dlookup_isSome_iff]
  cases dlookup k d <;> simp

theorem dlookup_append {α : Type} (k : String) (P Q : List (String × α)) :
    dlookup k (P ++ Q) =
      match dlookup k P with
      | some v => some v
      | none => dlookup k Q := by
  induction P with
  | nil => simp [dlookup]
  | cons p rest ih =>
    obtain ⟨k2, v⟩ := p
    by_cases h : k2 = k <;> simp [dlookup, h, ih]

theorem dlookup_of_mem_nodup {α : Type} {d : List (String × α)} {k : String} {v : α}
    (hnd : (dkeys d).Nodup) (hmem : (k, v) ∈ d) : dlookup k d = some v := by
  induction d with
  | nil => simp at hmem
  | cons p rest ih =>
    obtain ⟨k2, v2⟩ := p
    simp only [dkeys, List.map_cons, List.nodup_cons] at hnd
    rcases List.mem_cons.mp hmem with heq | hmem2
    · obtain ⟨h1, h2⟩ := Prod.mk.injEq .. ▸ heq
      injection heq with h1 h2
      subst h1; subst h2
      simp [dlookup]
    · have hne : k2 ≠ k := by
        rintro rfl
        exact hnd.1 (List.mem_map.mpr ⟨(k2, v), hmem2, rfl⟩)
      simp only [dlookup, hne, if_false]
      exact ih hnd.2 hmem2

theorem dinsert_of_not_mem {α : Type} {d : List (String × α)} {k : String} (v : α)
    (h : k ∉ dkeys d) : dinsert d k v = d ++ [(k, v)] := by
  have : dlookup k d = none := (dlookup_eq_none_iff k d).mpr h
  simp [dinsert, this]

theorem dkeys_append {α : Type} (P Q : List (String × α)) :
    dkeys (P ++ Q) = dkeys P ++ dkeys Q := by
  simp [dkeys]

theorem byteTotal_append (P Q : List (String × String)) :
    byteTotal (P ++ Q) = byteTotal P + byteTotal Q := by
  simp [byteTotal]

theorem dkeys_dinsert_of_mem {α : Type} {d : List (String × α)} {k : String} (v : α)
    (h : k ∈ dkeys d) : dkeys (dinsert d k v) = dkeys d := by
  have : (dlookup k d).isSome := (dlookup_isSome_iff k d).mpr h
  simp only [dinsert, this, if_true, dkeys, List.map_map]
  apply List.map_congr_left
  intro p _
  by_cases hp : p.1 = k <;> simp [hp]

theorem mem_dkeys_dinsert {α : Type} {d : List (String × α)} {k k2 : String} (v : α) :
    k2 ∈ dkeys (dinsert d k v) ↔ k2 ∈ dkeys d ∨ k2 = k := by
  by_cases h : k ∈ dkeys d
  · rw [dkeys_dinsert_of_mem v h]
    constructor
    · exact Or.inl
    · rintro (h2 | rfl) <;> [exact h2; exact h]
  · rw [dinsert_of_not_mem v h, dkeys_append]
    simp [dkeys]

theorem map_update_eq_self {α : Type} {d : List (String × α)} {k : String} (v : α)
    (h : ∀ p ∈ d, p.1 ≠ k) : d.map (fun p => if p.1 = k then (k, v) else p) = d := by
  conv_rhs => rw [← List.map_id d]
  apply List.map_congr_left
  intro p hp
  simp [h p hp]

theorem byteTotal_map_update {d : List (String × String)} {k : String} (v : String)
    (hnd : (dkeys d).Nodup) :
    byteTotal (d.map (fun p => if p.1 = k then (k, v) else p)) ≤ byteTotal d + strBytes v := by
  induction d with
  | nil => simp [byteTotal]
  | cons p rest ih =>
    obtain ⟨k2, v2⟩ := p
    simp only [dkeys, List.map_cons, List.nodup_cons] at hnd
    by_cases hk : k2 = k
    · subst hk
      have hrest : ∀ p ∈ rest, p.1 ≠ k2 := by
        intro p hp hpk
        exact hnd.1 (List.mem_map.mpr ⟨p, hp, hpk⟩)
      rw [List.map_cons, if_pos rfl, map_update_eq_self v hrest]
      simp only [byteTotal, List.map_cons, List.sum_cons]
      omega
    · have hle := ih hnd.2
      simp only [List.map_cons, if_neg hk, byteTotal, List.map_cons, List.sum_cons] at *
      omega

theorem byteTotal_dinsert_le {d : List (String × String)} {k : String} (v : String)
    (hnd : (dkeys d).Nodup) : byteTotal (dinsert d k v) ≤ byteTotal d + strBytes v := by
  by_cases h : (dlookup k d).isSome
  · simp only [dinsert, h, if_true]
    exact byteTotal_map_update v hnd
  · simp only [dinsert, h, if_false, byteTotal_append]
    simp [byteTotal]

theorem length_dinsert_le {α : Type} (d : List (String × α)) (k : String) (v : α) :
    (dinsert d k v).length ≤ d.length + 1 := by
  by_cases h : (dlookup k d).isSome <;> simp [dinsert, h]

theorem length_dinsert_of_mem {α : Type} {d : List (String × α)} {k : String} (v : α)
    (h : (dlookup k d).isSome) : (dinsert d k v).length = d.length := by
  simp [dinsert, h]

/-! ### Correctness of the byte-truncation binary search -/

theorem byteLen_take_le (l : List Char) (m : Nat) : byteLen (l.take m) ≤ byteLen l := by
  induction l generalizing m with
  | nil => simp [byteLen]
  | cons c rest ih =>
    cases m with
    | zero => simp [byteLen]
    | succ m2 =>
      simp only [List.take_succ_cons, byteLen, List.map_cons, List.sum_cons]
      exact Nat.add_le_add_left (ih m2) _

theorem byteLen_take_mono (l : List Char) {m n : Nat} (h : m ≤ n) :
    byteLen (l.take m) ≤ byteLen (l.take n) := by
  have : l.take m = (l.take n).take m := by
    rw [List.take_take, Nat.min_eq_left h]
  rw [this]
  exact byteLen_take_le _ _

/-- The predicate decided at each probe of the binary search. -/
theorem fits_zero (text : List Char) (maxBytes : Nat) : byteLen (text.take 0) ≤ maxBytes := by
  simp [byteLen]

theorem fitLen_le (text : List Char) (maxBytes : Nat) : fitLen text maxBytes ≤ text.length :=
  Nat.findGreatest_le _

theorem fitLen_fits (text : List Char) (maxBytes : Nat) :
    byteLen (text.take (fitLen text maxBytes)) ≤ maxBytes :=
  Nat.findGreatest_spec (P := fun m => byteLen (text.take m) ≤ maxBytes)
    (Nat.zero_le _) (fits_zero text maxBytes)

theorem le_fitLen_of_fits (text : List Char) (maxBytes : Nat) {m : Nat}
    (hm : m ≤ text.length) (hfit : byteLen (text.take m) ≤ maxBytes) :
    m ≤ fitLen text maxBytes :=
  Nat.le_findGreatest (P := fun m => byteLen (text.take m) ≤ maxBytes) hm hfit

theorem lt_of_not_fits (text : List Char) (maxBytes : Nat) {m : Nat}
    (_hm : m ≤ text.length) (hnf : ¬ byteLen (text.take m) ≤ maxBytes) :
    fitLen text maxBytes < m := by
  by_contra hle
  push_neg at hle
  exact hnf (Nat.le_trans (byteLen_take_mono text hle) (fitLen_fits text maxBytes))

theorem truncSearch_eq_take (text : List Char) (maxBytes : Nat) :
    ∀ (fuel : Nat) (left right : Int) (result : List Char),
      (right + 1 - left).toNat < fuel →
      0 ≤ left →
      right ≤ (text.length : Int) →
      left ≤ (fitLen text maxBytes : Int) + 1 →
      (fitLen text maxBytes : Int) ≤ right →
      result = text.take (left - 1).toNat →
      truncSearch text maxBytes fuel left right result =
        text.take (fitLen text maxBytes) := by
  intro fuel
  induction fuel with
  | zero => intro left right result hf; omega
  | succ fuel ih =>
    intro left right result hf h0 hr hlk hkr hres
    rw [truncSearch]
    by_cases hlr : left ≤ right
    · rw [if_pos hlr]
      have hmid1 : left ≤ (left + right) / 2 := by omega
      have hmid2 : (left + right) / 2 ≤ right := by omega
      by_cases hfit : byteLen (text.take ((left + right) / 2).toNat) ≤ maxBytes
      · rw [if_pos hfit]
        apply ih
        · omega
        · omega
        · exact hr
        · have hmle : ((left + right) / 2).toNat ≤ fitLen text maxBytes := by
            apply le_fitLen_of_fits text maxBytes _ hfit
            omega
          omega
        · exact hkr
        · congr 1
          omega
      · rw [if_neg hfit]
        apply ih
        · omega
        · exact h0
        · omega
        · exact hlk
        · have hlt : fitLen text maxBytes < ((left + right) / 2).toNat := by
            apply lt_of_not_fits text maxBytes _ hfit
            omega
          omega
        · exact hres
    · rw [if_neg hlr]
      rw [hres]
      congr 1
      omega

/-- `_truncate_to_bytes` returns the longest prefix of `text` whose UTF-8
encoding fits within `maxBytes`. -/
theorem truncate_to_bytes_eq_take (text : List Char) (maxBytes : Nat) :
    truncate_to_bytes text maxBytes = text.take (fitLen text maxBytes) := by
  rw [truncate_to_bytes]
  by_cases hall : byteLen text ≤ maxBytes
  · rw [if_pos hall]
    have : fitLen text maxBytes = text.length := by
      have h1 := fitLen_le text maxBytes
      have h2 : text.length ≤ fitLen text maxBytes := by
        apply le_fitLen_of_fits text maxBytes (Nat.le_refl _)
        simpa using hall
      omega
    rw [this, List.take_length]
  · rw [if_neg hall]
    apply truncSearch_eq_take
    · omega
    · omega
    · omega
    · have := fitLen_le text maxBytes
      omega
    · have := fitLen_le text maxBytes
      omega
    · simp

theorem byteLen_truncate_le (text : List Char) (maxBytes : Nat) :
    byteLen (truncate_to_bytes text maxBytes) ≤ maxBytes := by
  rw [truncate_to_bytes_eq_take]
  exact fitLen_fits text maxBytes

theorem strBytes_truncStr_le (s : String) (maxBytes : Nat) :
    strBytes (truncStr s maxBytes) ≤ maxBytes :=
  byteLen_truncate_le s.data maxBytes

theorem strBytes_append (s t : String) : strBytes (s ++ t) = strBytes s + strBytes t := by
  simp [strBytes, byteLen, String.data_append]

theorem strBytes_dots : strBytes "..." = 3 := by decide

/-- The stored size of a truncated value: at most the byte budget that was
available for it plus the three bytes of the ellipsis. -/
theorem strBytes_trunc_dots_le (s : String) (m : Nat) :
    strBytes (truncStr s m ++ "...") ≤ m + 3 := by
  rw [strBytes_append, strBytes_dots]
  exact Nat.add_le_add_right (strBytes_truncStr_le s m) 3

/-! ### Claim C2: vector dimension normalization -/

/-- C2: for every input vector of length L and every valid target
dimension D (256, 384, or 1024 — the only dimensions the manager
constructor accepts), `validate_and_transform` returns a vector of
exactly length D, equal to the front `D`-element prefix when L > D and to
the input zero-padded at the end when L < D, and every element of the
result is the image of the 32-bit-float cast `f32`. -/
theorem C2_validate_and_transform (f32 : ℚ → ℚ) (D : Nat)
    (hD : mkDimensionManager D = some D) (v : List ℚ) :
    (validate_and_transform f32 D v).length = D ∧
    (D = 256 ∨ D = 384 ∨ D = 1024) ∧
    (v.length > D →
      validate_and_transform f32 D v = ((v.map f32).take D).map f32) ∧
    (v.length < D →
      validate_and_transform f32 D v =
        (v.map f32 ++ List.replicate (D - v.length) (f32 0)).map f32) ∧
    (v.length = D → validate_and_transform f32 D v = (v.map f32).map f32) ∧
    (∀ x ∈ validate_and_transform f32 D v, ∃ y, x = f32 y) := by
  have hvalid : D = 256 ∨ D = 384 ∨ D = 1024 := by
    by_contra hno
    push_neg at hno
    obtain ⟨h1, h2, h3⟩ := hno
    simp [mkDimensionManager, VectorConfig.validate, h1, h2, h3] at hD
  refine ⟨?_, hvalid, ?_, ?_, ?_, ?_⟩
  · simp only [validate_and_transform, ensure_float32]
    by_cases h1 : v.length = D
    · simp [h1]
    · by_cases h2 : v.length > D
      · rw [List.length_map] at *
        simp only [h1, if_false, List.length_map, h2, if_true, List.length_map,
          List.length_take]
        omega
      · simp only [List.length_map, h1, if_false, h2, if_false, List.length_map,
          List.length_append, List.length_replicate]
        omega
  · intro hgt
    have h1 : ¬ v.length = D := by omega
    simp only [validate_and_transform, ensure_float32, List.length_map, h1, if_false,
      hgt, if_true]
  · intro hlt
    have h1 : ¬ v.length = D := by omega
    have h2 : ¬ v.length > D := by omega
    simp only [validate_and_transform, ensure_float32, List.length_map, h1, if_false,
      h2, if_false]
  · intro heq
    simp only [validate_and_transform, ensure_float32, List.length_map, heq, if_true]
  · intro x hx
    simp only [validate_and_transform, ensure_float32] at hx
    split at hx <;> [skip; split at hx] <;>
      · obtain ⟨y, _, hy⟩ := List.mem_map.mp hx
        exact ⟨y, hy.symm⟩

/-- Witness for C2 at D = 256 on a two-element vector (padding case) and
the identity cast. -/
theorem C2_validate_and_transform_witness :
    mkDimensionManager 256 = some 256 ∧
    (validate_and_transform id 256 [1, 2]).length = 256 := by
  have h := C2_validate_and_transform id 256 (by decide) [1, 2]
  exact ⟨by decide, h.1⟩

/-! ### Claim C7: delete_vectors failure conversion -/

/-- C7 counterexample: when the underlying `client.delete_vectors` call
fails with a non-"not found" error (here `AccessDenied`), `delete_vectors`
does not raise — it is a total function into the summary dictionary and
returns the failure recorded in counters, contradicting the claim that
the error propagates to the caller. -/
theorem C7_delete_vectors_counterexample :
    delete_vectors (some "AccessDenied") ["v1", "v2"] =
      ⟨2, 0, 2, 0, ["Delete operation failed: AccessDenied"]⟩ := by
  simp only [delete_vectors, List.length_cons, List.length_nil]
  norm_num
  rfl

/-- C7 (amended): `delete_vectors` converts every failure of the
underlying delete call into a returned summary — zero successes, all
requested ids counted as failed, the error message recorded — instead of
raising; elsewhere in the library a non-"not found" service error does
propagate, e.g. `delete_vector_bucket` re-raises every client error other
than `NoSuchBucket`. -/
theorem C7_delete_vectors_amended :
    (∀ (msg : String) (ids : List String), ids ≠ [] →
      delete_vectors (some msg) ids =
        ⟨ids.length, 0, ids.length, 0, ["Delete operation failed: " ++ msg]⟩) ∧
    (∀ code : String, code ≠ "NoSuchBucket" →
      delete_vector_bucket_onResp (.error code) = .error code) ∧
    (delete_vector_bucket_onResp (.error "NoSuchBucket") = .ok true) := by
  refine ⟨?_, ?_, ?_⟩
  · intro msg ids _
    simp only [delete_vectors]
    split <;> norm_num
  · intro code hcode
    simp [delete_vector_bucket_onResp, hcode]
  · simp [delete_vector_bucket_onResp]

/-- Witness for C7 (amended) at a concrete error and id list. -/
theorem C7_delete_vectors_amended_witness :
    delete_vectors (some "Boom") ["a"] =
      ⟨1, 0, 1, 0, ["Delete operation failed: Boom"]⟩ ∧
    delete_vector_bucket_onResp (.error "Denied") = .error "Denied" := by
  refine ⟨?_, ?_⟩
  · have h := C7_delete_vectors_amended.1 "Boom" ["a"] (by decide)
    simpa using h
  · exact C7_delete_vectors_amended.2.1 "Denied" (by decide)

/-! ### Claim C3: metadata validation happens before any put_vectors call -/

theorem validateAll_error_of_find {maxTags : Nat} :
    ∀ {items : List VectorItem} {bad : VectorItem},
      items.find? (fun it => decide (it.metadata.length > maxTags)) = some bad →
      validateAll maxTags items = .error ⟨bad.id, bad.metadata.length, maxTags⟩ := by
  intro items
  induction items with
  | nil => intro bad h; simp [List.find?] at h
  | cons item rest ih =>
    intro bad h
    by_cases hbad : item.metadata.length > maxTags
    · rw [List.find?_cons, decide_eq_true hbad] at h
      simp only [Option.some.injEq] at h
      subst h
      simp [validateAll, validate_metadata_limits, hbad]
    · rw [List.find?_cons, decide_eq_false hbad] at h
      simp only [] at h
      have hok : validate_metadata_limits item.metadata maxTags item.id = .ok () := by
        simp [validate_metadata_limits, hbad]
      simp only [validateAll, hok]
      exact ih h

/-- C3: whenever some record's metadata has more tags than the configured
maximum (`find?` locates the first such record, exactly as the validation
loop does), `ingest_vectors` raises `MetadataLimitExceededError` carrying
that record's id, its tag count and the limit — with an empty trace of
`put_vectors` calls, so no record of the list is ingested — and the
exception message names all three values. -/
theorem C3_ingest_validates_first (putErr : Nat → Option String) (maxTags batchSize : Nat)
    (items : List VectorItem) (bad : VectorItem)
    (hfind : items.find? (fun it => decide (it.metadata.length > maxTags)) = some bad) :
    ingest_vectors putErr maxTags items batchSize =
      ([], .error ⟨bad.id, bad.metadata.length, maxTags⟩) ∧
    bad.metadata.length > maxTags ∧
    (MetadataLimitError.mk bad.id bad.metadata.length maxTags).message =
      "Vector \x27" ++ bad.id ++ "\x27 has " ++ toString bad.metadata.length ++
        " metadata tags, but maximum allowed is " ++ toString maxTags := by
  refine ⟨?_, ?_, rfl⟩
  · have h := validateAll_error_of_find hfind
    simp [ingest_vectors, h]
  · have := List.find?_some hfind
    simpa using this

/-- Witness for C3: a two-record list whose second record exceeds a
limit of 1 tag; no put call is made and the first offending record is
named. -/
theorem C3_ingest_validates_first_witness :
    ingest_vectors (fun _ => none) 1
      [⟨"ok", [1], [("a", "x")]⟩, ⟨"big", [1], [("a", "x"), ("b", "y")]⟩] 25 =
      ([], .error ⟨"big", 2, 1⟩) := by
  have h := C3_ingest_validates_first (fun _ => none) 1 25
    [⟨"ok", [1], [("a", "x")]⟩, ⟨"big", [1], [("a", "x"), ("b", "y")]⟩]
    ⟨"big", [1], [("a", "x"), ("b", "y")]⟩ (by decide)
  exact h.1

/-! ### Claim C5: idempotent bucket/index lifecycle -/

/-- The state after ensuring bucket `b` exists. -/
def bucketEnsured (st : SvcState) (b : String) : SvcState :=
  if b ∈ st.buckets then st else ⟨b :: st.buckets, st.indexes⟩

/-- The state after ensuring index `(b, i)` exists. -/
def indexEnsured (st : SvcState) (b i : String) : SvcState :=
  if (b, i) ∈ st.indexes then st else ⟨st.buckets, (b, i) :: st.indexes⟩

theorem create_vector_bucket_ok (st : SvcState) (b : String) :
    create_vector_bucket st b = .ok (b, bucketEnsured st b) := by
  by_cases h : b ∈ st.buckets
  · simp [create_vector_bucket, svcGetBucket, svcCreateBucket, bucketEnsured, h]
  · simp [create_vector_bucket, svcGetBucket, svcCreateBucket, bucketEnsured, h]

theorem create_vector_index_ok (st : SvcState) (b i : String) :
    create_vector_index st b i = .ok (i, indexEnsured st b i) := by
  by_cases h : (b, i) ∈ st.indexes
  · simp [create_vector_index, svcCreateIndex, indexEnsured, h]
  · simp [create_vector_index, svcCreateIndex, indexEnsured, h]

theorem bucketEnsured_mem (st : SvcState) (b : String) : b ∈ (bucketEnsured st b).buckets := by
  by_cases h : b ∈ st.buckets <;> simp [bucketEnsured, h]

theorem bucketEnsured_idem (st : SvcState) (b : String) :
    bucketEnsured (bucketEnsured st b) b = bucketEnsured st b := by
  simp [bucketEnsured.eq_def (bucketEnsured st b), bucketEnsured_mem st b]

theorem indexEnsured_mem (st : SvcState) (b i : String) :
    (b, i) ∈ (indexEnsured st b i).indexes := by
  by_cases h : (b, i) ∈ st.indexes <;> simp [indexEnsured, h]

theorem indexEnsured_idem (st : SvcState) (b i : String) :
    indexEnsured (indexEnsured st b i) b i = indexEnsured st b i := by
  simp [indexEnsured.eq_def (indexEnsured st b i), indexEnsured_mem st b i]

/-- C5: lifecycle idempotence.  Creating a vector bucket or index returns
success for any number of repeated calls (in particular when the resource
already exists — the existence check or the ConflictException path reports
success without raising), and deleting an index or bucket that is absent
returns `True` instead of raising, again for any number of repeated
calls, leaving the service state unchanged. -/
theorem C5_lifecycle_idempotent (st : SvcState) (b i : String) (n : Nat) :
    (iterCreateBucket st b n = .ok (b, bucketEnsured st b)) ∧
    (b ∈ st.buckets → iterCreateBucket st b n = .ok (b, st)) ∧
    (iterCreateIndex st b i n = .ok (i, indexEnsured st b i)) ∧
    ((b, i) ∉ st.indexes → iterDeleteIndex st b i n = (true, st)) ∧
    (b ∉ st.buckets → iterDeleteBucket st b n = .ok (true, st)) := by
  refine ⟨?_, ?_, ?_, ?_, ?_⟩
  · induction n generalizing st with
    | zero => exact create_vector_bucket_ok st b
    | succ m ih =>
      simp only [iterCreateBucket, create_vector_bucket_ok st b]
      rw [ih (bucketEnsured st b), bucketEnsured_idem]
  · intro hmem
    have hb : bucketEnsured st b = st := by simp [bucketEnsured, hmem]
    induction n generalizing st with
    | zero => simpa [iterCreateBucket, hb] using create_vector_bucket_ok st b
    | succ m ih =>
      simp only [iterCreateBucket, create_vector_bucket_ok st b, hb]
      exact ih st hmem hb
  · induction n generalizing st with
    | zero => exact create_vector_index_ok st b i
    | succ m ih =>
      simp only [iterCreateIndex, create_vector_index_ok st b i]
      rw [ih (indexEnsured st b i), indexEnsured_idem]
  · intro habs
    have hd : delete_index st b i = (true, st) := by
      simp [delete_index, svcDeleteIndex, habs]
    induction n generalizing st with
    | zero => exact hd
    | succ m ih =>
      simp only [iterDeleteIndex, hd]
      rw [ih st habs hd]
      simp
  · intro habs
    have hd : delete_vector_bucket st b = .ok (true, st) := by
      simp [delete_vector_bucket, svcDeleteBucket, habs]
    induction n generalizing st with
    | zero => exact hd
    | succ m ih =>
      simp only [iterDeleteBucket, hd]
      rw [ih st habs hd]
      simp

/-- Witness for C5: three repeated calls against a concrete state where
the bucket exists and the index/bucket being deleted are absent. -/
theorem C5_lifecycle_idempotent_witness :
    iterCreateBucket ⟨["B"], []⟩ "B" 2 = .ok ("B", ⟨["B"], []⟩) ∧
    iterDeleteIndex ⟨["B"], []⟩ "B" "idx" 2 = (true, ⟨["B"], []⟩) ∧
    iterDeleteBucket ⟨["B"], []⟩ "C" 2 = .ok (true, ⟨["B"], []⟩) := by
  have h := C5_lifecycle_idempotent ⟨["B"], []⟩ "B" "idx" 2
  have h2 := C5_lifecycle_idempotent ⟨["B"], []⟩ "C" "idx" 2
  exact ⟨h.2.1 (by decide), h.2.2.2.1 (by decide), h2.2.2.2.2 (by decide)⟩

/-! ### Claim C6: pattern data validation precedes model and store calls -/

/-- C6: (a) invoking the hybrid pattern without a `text` key raises a
validation error with an empty effect trace — no embedding-model or
object-store call — both directly (`_validate_required_keys` fires first)
and through the engine (`validate_data` is false); (b) `summarize` with
text shorter than the 1000-character minimum is rejected by
`validate_data`, and the engine then raises without any LLM call; (c) for
every registered pattern, a `validate_data` failure makes
`PatternEngine.process` raise a `ValueError` naming the pattern's
required and optional keys, without running the pattern's `process`
method (the outcome is the same for any `run` implementation, and the
trace is empty). -/
theorem C6_validation_before_calls :
    (∀ (embed : String → List ℚ) (storeUri : String → String) (docId : String)
        (data : PyDict) (md : List (String × String)) (pats : List String),
      dlookup "text" data = none →
      hybridProcess embed storeUri docId data md =
        ([], .error "Pattern \x27hybrid\x27 requires keys [\x27text\x27], but missing: [\x27text\x27]") ∧
      engineProcess pats (hybridPat embed storeUri docId) data md =
        ([], .error (engineValidationMsg (hybridPat embed storeUri docId)))) ∧
    (∀ (t : String) (data : PyDict),
      dlookup "text" data = some (.str t) → t.length < 1000 →
      summarizeValidate 1000 true data = false) ∧
    (∀ (summarize : String → String) (embed : String → List ℚ)
        (storeUri : String → String) (docId : String) (data : PyDict)
        (md : List (String × String)) (pats : List String),
      summarizeValidate 1000 true data = false →
      engineProcess pats (summarizePat summarize embed storeUri docId) data md =
        ([], .error (engineValidationMsg (summarizePat summarize embed storeUri docId)))) ∧
    (∀ (pats : List String) (p : Pat) (data : PyDict) (md : List (String × String)),
      p.validate data = false →
      engineProcess pats p data md = ([], .error (engineValidationMsg p)) ∧
      (∀ run2, engineProcess pats ⟨p.name, p.requiredKeys, p.optionalKeys, p.validate, run2⟩
          data md = engineProcess pats p data md) ∧
      engineValidationMsg p =
        "Data validation failed for pattern \x27" ++ p.name ++ "\x27. Required keys: " ++
          pyReprStrList p.requiredKeys ++ ", Optional keys: " ++
          pyReprStrList p.optionalKeys) := by
  refine ⟨?_, ?_, ?_, ?_⟩
  · intro embed storeUri docId data md pats hno
    have hreq : hybridRequiredCheck data =
        .error "Pattern \x27hybrid\x27 requires keys [\x27text\x27], but missing: [\x27text\x27]" := by
      simp [hybridRequiredCheck, hno]
    have hval : hybridValidate data = false := by
      simp [hybridValidate, hno]
    constructor
    · simp [hybridProcess, hreq]
    · simp [engineProcess, hybridPat, hval]
  · intro t data htext hshort
    simp [summarizeValidate, htext, hshort]
  · intro summarize embed storeUri docId data md pats hval
    simp [engineProcess, summarizePat, hval]
  · intro pats p data md hval
    refine ⟨?_, ?_, rfl⟩
    · simp [engineProcess, hval]
    · intro run2
      simp only [engineProcess, hval, Bool.false_eq_true, not_false_eq_true, if_pos]
      rfl

/-- Witness for C6: concrete data dictionaries — one without `text` for
hybrid, one with a 5-character text for summarize. -/
theorem C6_validation_before_calls_witness :
    hybridProcess (fun _ => [1]) (fun k => "s3://b/" ++ k) "d1"
        [("image", PyVal.imgBytes 4)] [] =
      ([], .error "Pattern \x27hybrid\x27 requires keys [\x27text\x27], but missing: [\x27text\x27]") ∧
    summarizeValidate 1000 true [("text", PyVal.str "short")] = false := by
  constructor
  · exact ((C6_validation_before_calls.1 (fun _ => [1]) (fun k => "s3://b/" ++ k) "d1"
      [("image", PyVal.imgBytes 4)] [] [] (by decide)).1)
  · exact C6_validation_before_calls.2.1 "short" [("text", PyVal.str "short")]
      (by decide) (by decide)

/-! ### Claim C8: dealer database schema -/

theorem digitCh_inj {a b : Nat} (ha : a < 10) (hb : b < 10) (h : digitCh a = digitCh b) :
    a = b := by
  interval_cases a <;> interval_cases b <;>
    first
      | rfl
      | (exact absurd h (by decide))

theorem map_digitCh_inj : ∀ {l1 l2 : List Nat}, (∀ d ∈ l1, d < 10) → (∀ d ∈ l2, d < 10) →
    l1.map digitCh = l2.map digitCh → l1 = l2 := by
  intro l1
  induction l1 with
  | nil =>
    intro l2 _ _ h
    cases l2 with
    | nil => rfl
    | cons b t => simp at h
  | cons a t ih =>
    intro l2 h1 h2 h
    cases l2 with
    | nil => simp at h
    | cons b t2 =>
      simp only [List.map_cons, List.cons.injEq] at h
      have hab : a = b :=
        digitCh_inj (h1 a (List.mem_cons_self a t)) (h2 b (List.mem_cons_self b t2)) h.1
      have ht : t = t2 :=
        ih (fun d hd => h1 d (List.mem_cons_of_mem a hd))
          (fun d hd => h2 d (List.mem_cons_of_mem b hd)) h.2
      rw [hab, ht]

theorem natDigitsRev_eq_digits : ∀ fuel n, n < fuel → natDigitsRev fuel n = Nat.digits 10 n := by
  intro fuel
  induction fuel with
  | zero => intro n h; omega
  | succ f ih =>
    intro n h
    by_cases hn : n = 0
    · subst hn
      simp [natDigitsRev]
    · rw [natDigitsRev, if_neg hn, Nat.digits_def' (by norm_num) (by omega)]
      rw [ih (n / 10) (by omega)]

theorem decDigits_eq (n : Nat) : decDigits n = (Nat.digits 10 n).reverse := by
  rw [decDigits, natDigitsRev_eq_digits (n + 1) n (by omega)]

theorem pad3_lt_ten (n : Nat) : ∀ d ∈ pad3 n, d < 10 := by
  intro d hd
  simp only [pad3, decDigits_eq, List.mem_append, List.mem_replicate,
    List.mem_reverse] at hd
  rcases hd with ⟨_, rfl⟩ | hd
  · norm_num
  · exact Nat.digits_lt_base (by norm_num) hd

theorem dropWhile_zero_replicate (k : Nat) (l : List Nat) :
    (List.replicate k 0 ++ l).dropWhile (· = 0) = l.dropWhile (· = 0) := by
  induction k with
  | zero => simp
  | succ m ih =>
    rw [List.replicate_succ, List.cons_append, List.dropWhile_cons]
    simp [ih]

theorem dropWhile_zero_pad3 {n : Nat} (hn : 1 ≤ n) :
    (pad3 n).dropWhile (· = 0) = (Nat.digits 10 n).reverse := by
  have hne : Nat.digits 10 n ≠ [] := Nat.digits_ne_nil_iff_ne_zero.mpr (by omega)
  rw [pad3, decDigits_eq, dropWhile_zero_replicate]
  obtain ⟨h, t, hht⟩ := List.exists_cons_of_ne_nil (by simpa using hne :
    (Nat.digits 10 n).reverse ≠ [])
  have hlast := Nat.getLast_digit_ne_zero 10 (show n ≠ 0 by omega)
  have hsome : (Nat.digits 10 n).getLast? = some h := by
    rw [← List.head?_reverse, hht]
    rfl
  rw [List.getLast?_eq_getLast _ hne] at hsome
  injection hsome with hsome
  have hhead : ¬ h = 0 := by
    intro h0
    exact hlast (hsome.trans h0)
  rw [hht, List.dropWhile_cons]
  simp [hhead]

theorem pad3_inj {a b : Nat} (ha : 1 ≤ a) (hb : 1 ≤ b) (h : pad3 a = pad3 b) : a = b := by
  have hd : (Nat.digits 10 a).reverse = (Nat.digits 10 b).reverse := by
    rw [← dropWhile_zero_pad3 ha, ← dropWhile_zero_pad3 hb, h]
  have hd2 : Nat.digits 10 a = Nat.digits 10 b := List.reverse_injective hd
  calc a = Nat.ofDigits 10 (Nat.digits 10 a) := (Nat.ofDigits_digits 10 a).symm
    _ = Nat.ofDigits 10 (Nat.digits 10 b) := by rw [hd2]
    _ = b := Nat.ofDigits_digits 10 b

theorem generate_dealer_id_data (n : Nat) :
    (generate_dealer_id n).data = "DEALER-".data ++ (pad3 n).map digitCh := by
  show ("DEALER-" ++ (⟨(pad3 n).map digitCh⟩ : String)).data = _
  rw [String.data_append]

theorem generate_dealer_id_inj {a b : Nat} (ha : 1 ≤ a) (hb : 1 ≤ b)
    (h : generate_dealer_id a = generate_dealer_id b) : a = b := by
  have hdata := congrArg String.data h
  rw [generate_dealer_id_data, generate_dealer_id_data] at hdata
  have hmap : (pad3 a).map digitCh = (pad3 b).map digitCh :=
    List.append_cancel_left hdata
  exact pad3_inj ha hb (map_digitCh_inj (pad3_lt_ten a) (pad3_lt_ten b) hmap)

theorem generate_database_eq (oracle : Nat → DealerChoice) : ∀ n : Nat,
    generate_database oracle n =
      (List.range' 1 n).map (fun i => (generate_dealer_id i, generate_dealer oracle i)) := by
  intro n
  induction n with
  | zero => rfl
  | succ m ih =>
    rw [generate_database, List.range'_1_concat, List.foldl_append]
    rw [show (List.range' 1 m).foldl
        (fun db i => dinsert db (generate_dealer_id i) (generate_dealer oracle i)) [] =
        generate_database oracle m from rfl, ih]
    simp only [List.foldl_cons, List.foldl_nil]
    rw [dinsert_of_not_mem]
    · rw [List.map_append]
      rfl
    · intro hmem
      simp only [dkeys, List.map_map, List.mem_map, Function.comp] at hmem
      obtain ⟨i, hi, hid⟩ := hmem
      obtain ⟨h1, h2⟩ := List.mem_range'_1.mp hi
      have := generate_dealer_id_inj h1 (by omega) hid
      omega

/-- The twelve field names of every dealer record, in dict-literal order. -/
def dealerFields : List String :=
  ["name", "region", "location", "state", "city", "manufacturer_specialties",
   "services", "certified", "contact", "appointment_slots", "year_established",
   "specialties"]

/-- C8: for every requested count N ≥ 1 (and every outcome of the random
draws), `generate_database` is exactly the map keyed
`DEALER-001 … DEALER-{N:03d}` in order — so it has exactly N records —
and every record carries all twelve fields `name, region, location,
state, city, manufacturer_specialties, services, certified, contact,
appointment_slots, year_established, specialties`. -/
theorem C8_generate_database_schema (oracle : Nat → DealerChoice) (n : Nat) (hn : 1 ≤ n) :
    generate_database oracle n =
      (List.range' 1 n).map (fun i => (generate_dealer_id i, generate_dealer oracle i)) ∧
    (generate_database oracle n).length = n ∧
    dkeys (generate_database oracle n) = (List.range' 1 n).map generate_dealer_id ∧
    (generate_database oracle n).head? =
      some (generate_dealer_id 1, generate_dealer oracle 1) ∧
    (∀ p ∈ generate_database oracle n, dkeys p.2 = dealerFields) := by
  have hchar := generate_database_eq oracle n
  refine ⟨hchar, ?_, ?_, ?_, ?_⟩
  · rw [hchar]
    simp
  · rw [hchar, dkeys, List.map_map]
    rfl
  · rw [hchar]
    obtain ⟨m, rfl⟩ : ∃ m, n = m + 1 := ⟨n - 1, by omega⟩
    rw [List.range'_succ]
    simp
  · intro p hp
    rw [hchar] at hp
    obtain ⟨i, _, rfl⟩ := List.mem_map.mp hp
    rfl

/-- Witness for C8 at N = 2 with a constant choice oracle. -/
theorem C8_generate_database_schema_witness :
    dkeys (generate_database
      (fun _ => ⟨"North", "Detroit, MI", "Premium Auto Service", ["Honda"], ["oil_change"],
        ["Luxury Vehicles"], true, "(555) 123-4567", "1 Auto Lane, Detroit, MI",
        "Mon-Fri 8AM-6PM, Sat 8AM-4PM", "contact@premiumaut.gmail.com", 2001⟩) 2) =
      ["DEALER-001", "DEALER-002"] := by
  have h := C8_generate_database_schema
    (fun _ => ⟨"North", "Detroit, MI", "Premium Auto Service", ["Honda"], ["oil_change"],
      ["Luxury Vehicles"], true, "(555) 123-4567", "1 Auto Lane, Detroit, MI",
      "Mon-Fri 8AM-6PM, Sat 8AM-4PM", "contact@premiumaut.gmail.com", 2001⟩) 2 (by decide)
  rw [h.2.2.1]
  decide

/-! ### Claim C4: batch document-id list -/

theorem batchStarts_zero (bs : Nat) : batchStarts 0 bs = [] := by
  rcases Nat.eq_zero_or_pos bs with rfl | hbs
  · rfl
  · rw [batchStarts, Nat.div_eq_of_lt (by omega)]
    rfl

theorem batchStarts_cons {bs n : Nat} (hbs : 0 < bs) (hn : 0 < n) :
    batchStarts n bs = 0 :: (batchStarts (n - bs) bs).map (· + bs) := by
  rw [batchStarts, batchStarts]
  have h1 : n + bs - 1 = (n - 1) + bs := by omega
  rw [h1, Nat.add_div_right _ hbs, List.range_succ_eq_map]
  have h2 : (n - bs + bs - 1) / bs = (n - 1) / bs := by
    rcases le_or_lt n bs with hle | hlt
    · rw [show n - bs = 0 by omega]
      rw [Nat.div_eq_of_lt (by omega), Nat.div_eq_of_lt (by omega)]
    · congr 1
      omega
  rw [h2]
  simp only [List.map_cons, Nat.zero_mul, List.map_map]
  congr 1
  apply List.map_congr_left
  intro x _
  simp only [Function.comp_apply]
  rw [Nat.succ_mul]

theorem flatten_map_of_comp {α β γ : Type} (g : α → List β) (h : β → γ) (l : List α) :
    (l.map (fun s => (g s).map h)).flatten = ((l.map g).flatten).map h := by
  induction l with
  | nil => rfl
  | cons a rest ih =>
    simp only [List.map_cons, List.flatten_cons, List.map_append, ih]

theorem chunkCover {bs : Nat} (hbs : 0 < bs) :
    ∀ n, ((batchStarts n bs).map
        (fun i => (List.range (min bs (n - i))).map (· + i))).flatten = List.range n := by
  intro n
  induction n using Nat.strong_induction_on with
  | _ n ih =>
    rcases Nat.eq_zero_or_pos n with rfl | hn
    · rw [batchStarts_zero]
      rfl
    · rw [batchStarts_cons hbs hn]
      simp only [List.map_cons, List.flatten_cons, List.map_map]
      have hchunk0 : (List.range (min bs (n - 0))).map (· + 0) = List.range (min bs n) := by
        simp
      have hrest : ((batchStarts (n - bs) bs).map
          ((fun i => (List.range (min bs (n - i))).map (· + i)) ∘ (· + bs))).flatten =
          (List.range (n - bs)).map (· + bs) := by
        have hfun : ∀ s, ((fun i => (List.range (min bs (n - i))).map (· + i)) ∘ (· + bs)) s =
            ((fun i => (List.range (min bs ((n - bs) - i))).map (· + i)) s).map (· + bs) := by
          intro s
          simp only [Function.comp_apply, List.map_map]
          have : n - (s + bs) = n - bs - s := by omega
          rw [this]
          apply List.map_congr_left
          intro x _
          simp only [Function.comp_apply]
          omega
        rw [List.map_congr_left (fun s _ => hfun s)]
        rw [flatten_map_of_comp (fun i => (List.range (min bs ((n - bs) - i))).map (· + i))
          (· + bs) (batchStarts (n - bs) bs)]
        rw [ih (n - bs) (by omega)]
      rw [hchunk0, hrest]
      rcases le_or_lt n bs with hle | hlt
      · rw [Nat.min_eq_right hle, show n - bs = 0 by omega]
        simp
      · rw [Nat.min_eq_left (by omega)]
        have : n = bs + (n - bs) := by omega
        conv_rhs => rw [this]
        rw [List.range_add]
        congr 1
        apply List.map_congr_left
        intro x _
        omega

theorem processChunk_docIds (enableParallel : Bool) (uuids : Nat → String)
    (procItem : Nat → Option (List ℚ × List (String × String)))
    (storeResult : Nat → Option Nat) (chunkIdx offset len : Nat) :
    (processChunk enableParallel uuids procItem storeResult chunkIdx offset len).docIds =
      ((List.range len).map (· + offset)).map (fun i => uuids (i + 1)) := by
  rw [processChunk]
  split
  · rw [processChunkParallel]
    split
    · split <;> rfl
    · rfl
  · rw [processChunkSequential]
    split
    · split <;> rfl
    · rfl

/-- C4: for every non-empty input list (of any length `n ≥ 1`, any batch
size ≥ 1, matching or omitted metadata list), `process_batch` succeeds
and its document-id list is exactly one freshly drawn id per input item,
in submission order — `uuids (i + 1)` for item `i` — regardless of which
items' per-item processing fails (the id list does not depend on
`procItem` or `storeResult` at all), so ids of failed items are still
present. -/
theorem C4_process_batch_ids (enableParallel : Bool) (batchSize : Nat)
    (uuids : Nat → String) (procItem : Nat → Option (List ℚ × List (String × String)))
    (storeResult : Nat → Option Nat) (n : Nat) (metadataLen : Option Nat)
    (hn : 1 ≤ n) (hbs : 1 ≤ batchSize)
    (hmd : metadataLen = none ∨ metadataLen = some n) :
    process_batch enableParallel batchSize uuids procItem storeResult n metadataLen =
      .ok ((List.range n).map (fun i => uuids (i + 1)),
        (((batchStarts n batchSize).map (fun i =>
          processChunk enableParallel uuids procItem storeResult (i / batchSize) i
            (min batchSize (n - i)))).map ChunkResult.successful).sum,
        (((batchStarts n batchSize).map (fun i =>
          processChunk enableParallel uuids procItem storeResult (i / batchSize) i
            (min batchSize (n - i)))).map ChunkResult.failed).sum) ∧
    ((List.range n).map (fun i => uuids (i + 1))).length = n := by
  have hids : (((batchStarts n batchSize).map (fun i =>
      processChunk enableParallel uuids procItem storeResult (i / batchSize) i
        (min batchSize (n - i)))).map ChunkResult.docIds).flatten =
      (List.range n).map (fun i => uuids (i + 1)) := by
    rw [List.map_map]
    have : ((fun r => r.docIds) ∘ fun i =>
        processChunk enableParallel uuids procItem storeResult (i / batchSize) i
          (min batchSize (n - i))) = fun i =>
        ((List.range (min batchSize (n - i))).map (· + i)).map (fun j => uuids (j + 1)) := by
      funext i
      exact processChunk_docIds enableParallel uuids procItem storeResult (i / batchSize) i
        (min batchSize (n - i))
    rw [this]
    rw [flatten_map_of_comp (fun i => (List.range (min batchSize (n - i))).map (· + i))
      (fun j => uuids (j + 1)) (batchStarts n batchSize)]
    rw [chunkCover hbs n]
  refine ⟨?_, by simp⟩
  rw [process_batch, if_neg (by omega)]
  rw [if_neg ?hmdn]
  case hmdn =>
    rcases hmd with rfl | rfl
    · simp
    · simp
  simp only [hids]

/-- Witness for C4: three items, batch size 2, the middle item failing;
the returned id list still has one id per item in order. -/
theorem C4_process_batch_ids_witness :
    ∃ succ fail : Nat,
      process_batch true 2 (fun i => "u" ++ toString i)
        (fun i => if i = 1 then none else some ([1], [])) (fun _ => some 10) 3 none =
        .ok (["u1", "u2", "u3"], succ, fail) := by
  obtain ⟨h, _⟩ := C4_process_batch_ids true 2 (fun i => "u" ++ toString i)
    (fun i => if i = 1 then none else some ([1], [])) (fun _ => some 10) 3 none
    (by decide) (by decide) (Or.inl rfl)
  refine ⟨2, 1, ?_⟩
  rw [h]
  rfl

/-! ### Claims C1 and C10: metadata limiting -/

theorem mem_dinsert {α : Type} {d : List (String × α)} {k : String} {v : α} {p : String × α}
    (hp : p ∈ dinsert d k v) : p ∈ d ∨ p = (k, v) := by
  rcases hb : (dlookup k d).isSome with _ | _
  · simp only [dinsert, hb, Bool.false_eq_true, if_false, List.mem_append,
      List.mem_singleton] at hp
    exact hp
  · simp only [dinsert, hb, if_true] at hp
    obtain ⟨q, hq, hqp⟩ := List.mem_map.mp hp
    by_cases hqk : q.1 = k
    · right
      rw [← hqp]
      simp [hqk]
    · left
      rw [← hqp]
      simpa [hqk] using hq

theorem nodup_dkeys_dinsert {α : Type} {d : List (String × α)} {k : String} (v : α)
    (hnd : (dkeys d).Nodup) : (dkeys (dinsert d k v)).Nodup := by
  by_cases h : k ∈ dkeys d
  · rw [dkeys_dinsert_of_mem v h]
    exact hnd
  · rw [dinsert_of_not_mem v h, dkeys_append]
    simp only [dkeys, List.map_cons, List.map_nil]
    refine List.nodup_append.mpr ⟨hnd, List.nodup_singleton k, ?_⟩
    intro a ha hb
    rw [List.mem_singleton.mp hb] at ha
    exact h ha

/-- The invariant `limit_metadata` maintains: no duplicate keys, the
tracked byte counter dominates the stored bytes and respects the budget,
the tag budget is respected, and every stored value is the original value
of its key in the input or a binary-search truncation of it. -/
def MLInv (cfg : MLCfg) (md : List (String × String)) (st : MLState) : Prop :=
  (dkeys st.limited).Nodup ∧
  byteTotal st.limited ≤ st.total ∧
  st.total ≤ cfg.maxValueBytes ∧
  st.limited.length + st.slots ≤ cfg.maxTags ∧
  (∀ p ∈ st.limited, ∃ orig, dlookup p.1 md = some orig ∧
    (p.2 = orig ∨ ∃ m, p.2 = truncStr orig m ++ "..."))

theorem mlInv_init (cfg : MLCfg) (md : List (String × String)) : MLInv cfg md (mlInit cfg) := by
  refine ⟨by simp [mlInit, dkeys], by simp [mlInit, byteTotal], by simp [mlInit],
    by simp [mlInit], by simp [mlInit]⟩

theorem mlInv_add (cfg : MLCfg) (md : List (String × String)) {st : MLState} {k v : String}
    (hinv : MLInv cfg md st) (hslots : st.slots > 0)
    (htot : st.total + strBytes v ≤ cfg.maxValueBytes)
    (hform : ∃ orig, dlookup k md = some orig ∧
      (v = orig ∨ ∃ m, v = truncStr orig m ++ "...")) :
    MLInv cfg md ⟨dinsert st.limited k v, st.slots - 1, st.total + strBytes v⟩ := by
  obtain ⟨h1, h2, h3, h4, h5⟩ := hinv
  refine ⟨nodup_dkeys_dinsert v h1, ?_, htot, ?_, ?_⟩
  · have hb := byteTotal_dinsert_le (d := st.limited) (k := k) v h1
    show byteTotal (dinsert st.limited k v) ≤ st.total + strBytes v
    omega
  · have hl := length_dinsert_le st.limited k v
    show (dinsert st.limited k v).length + (st.slots - 1) ≤ cfg.maxTags
    omega
  · intro p hp
    rcases mem_dinsert hp with hpd | rfl
    · exact h5 p hpd
    · exact hform

theorem priStep_inv (cfg : MLCfg) (md : List (String × String)) {st : MLState} (tag : String)
    (hinv : MLInv cfg md st) : MLInv cfg md (priStep cfg md st tag) := by
  rw [priStep]
  rcases hl : dlookup tag md with _ | v
  · exact hinv
  · simp only []
    by_cases hs : st.slots > 0
    · rw [if_pos hs]
      by_cases hfit : st.total + strBytes v ≤ cfg.maxValueBytes
      · rw [if_pos hfit]
        exact mlInv_add cfg md hinv hs hfit ⟨v, hl, Or.inl rfl⟩
      · rw [if_neg hfit]
        by_cases havail : cfg.maxValueBytes - st.total > 10
        · rw [if_pos havail]
          have htv : st.total + strBytes (truncStr v (cfg.maxValueBytes - st.total - 3) ++ "...") ≤
              cfg.maxValueBytes := by
            have := strBytes_trunc_dots_le v (cfg.maxValueBytes - st.total - 3)
            omega
          exact mlInv_add cfg md hinv hs htv
            ⟨v, hl, Or.inr ⟨cfg.maxValueBytes - st.total - 3, rfl⟩⟩
        · rw [if_neg havail]
          exact hinv
    · rw [if_neg hs]
      exact hinv

theorem priPhase_inv (cfg : MLCfg) (md : List (String × String)) :
    ∀ (tags : List String) (st : MLState), MLInv cfg md st →
      MLInv cfg md (priPhase cfg md tags st) := by
  intro tags
  induction tags with
  | nil => intro st h; exact h
  | cons t rest ih =>
    intro st h
    rw [priPhase, List.foldl_cons]
    exact ih (priStep cfg md st t) (priStep_inv cfg md t h)

theorem restPhase_inv (cfg : MLCfg) (md : List (String × String)) :
    ∀ (items : List (String × String)) (st : MLState), MLInv cfg md st →
      (∀ p ∈ items, ∃ orig, dlookup p.1 md = some orig ∧ p.2 = orig) →
      MLInv cfg md (restPhase cfg st items) := by
  intro items
  induction items with
  | nil => intro st h _; exact h
  | cons p rest ih =>
    intro st h hitems
    obtain ⟨k, v⟩ := p
    rw [restPhase]
    by_cases hcond : (dlookup k st.limited).isNone ∧ st.slots > 0
    · rw [if_pos hcond]
      obtain ⟨horig, hlk, hveq⟩ := hitems (k, v) (List.mem_cons_self _ _)
      by_cases hfit : st.total + strBytes v ≤ cfg.maxValueBytes
      · rw [if_pos hfit]
        exact ih _ (mlInv_add cfg md h hcond.2 hfit ⟨horig, hlk, Or.inl hveq⟩)
          (fun q hq => hitems q (List.mem_cons_of_mem _ hq))
      · rw [if_neg hfit]
        by_cases havail : cfg.maxValueBytes - st.total > 10
        · rw [if_pos havail]
          have htv : st.total +
              strBytes (truncStr v (cfg.maxValueBytes - st.total - 3) ++ "...") ≤
              cfg.maxValueBytes := by
            have := strBytes_trunc_dots_le v (cfg.maxValueBytes - st.total - 3)
            omega
          exact mlInv_add cfg md h hcond.2 htv
            ⟨horig, hlk, Or.inr ⟨cfg.maxValueBytes - st.total - 3,
              by rw [show v = horig from hveq]⟩⟩
        · rw [if_neg havail]
          exact h
    · rw [if_neg hcond]
      exact ih st h (fun q hq => hitems q (List.mem_cons_of_mem _ hq))

theorem priStep_mem_mono (cfg : MLCfg) (md : List (String × String)) {st : MLState}
    (tag k : String) (hk : k ∈ dkeys st.limited) :
    k ∈ dkeys (priStep cfg md st tag).limited := by
  rw [priStep]
  rcases dlookup tag md with _ | v
  · exact hk
  · simp only []
    split
    · split
      · exact (mem_dkeys_dinsert _).mpr (Or.inl hk)
      · split
        · exact (mem_dkeys_dinsert _).mpr (Or.inl hk)
        · exact hk
    · exact hk

theorem priPhase_mem_mono (cfg : MLCfg) (md : List (String × String)) :
    ∀ (tags : List String) (st : MLState) (k : String), k ∈ dkeys st.limited →
      k ∈ dkeys (priPhase cfg md tags st).limited := by
  intro tags
  induction tags with
  | nil => intro st k hk; exact hk
  | cons t rest ih =>
    intro st k hk
    rw [priPhase, List.foldl_cons]
    exact ih (priStep cfg md st t) k (priStep_mem_mono cfg md t k hk)

theorem restPhase_mem_mono (cfg : MLCfg) :
    ∀ (items : List (String × String)) (st : MLState) (k : String), k ∈ dkeys st.limited →
      k ∈ dkeys (restPhase cfg st items).limited := by
  intro items
  induction items with
  | nil => intro st k hk; exact hk
  | cons p rest ih =>
    intro st k hk
    obtain ⟨k2, v⟩ := p
    rw [restPhase]
    by_cases hcond : (dlookup k2 st.limited).isNone ∧ st.slots > 0
    · rw [if_pos hcond]
      by_cases hfit : st.total + strBytes v ≤ cfg.maxValueBytes
      · rw [if_pos hfit]
        exact ih _ k ((mem_dkeys_dinsert _).mpr (Or.inl hk))
      · rw [if_neg hfit]
        by_cases havail : cfg.maxValueBytes - st.total > 10
        · rw [if_pos havail]
          exact (mem_dkeys_dinsert _).mpr (Or.inl hk)
        · rw [if_neg havail]
          exact hk
    · rw [if_neg hcond]
      exact ih st k hk

/-- C1 counterexample: with `max_tags = 3`, `max_value_bytes = 20` and
priority tags `[a, b]`, an input of four tags whose priority value `a`
consumes the whole byte budget makes `limit_metadata` drop the priority
tag `b` even though `b`'s one-byte value individually fits the budget —
because fewer than 11 bytes remain when `b` is considered. -/
theorem C1_limit_metadata_counterexample :
    ([("a", "xxxxxxxxxxxxxxxxxxxx"), ("b", "x"), ("c", "y"), ("d", "z")] :
        List (String × String)).length > (MLCfg.mk 3 20 ["a", "b"]).maxTags ∧
    "b" ∈ (MLCfg.mk 3 20 ["a", "b"]).priorityTags ∧
    dlookup "b" [("a", "xxxxxxxxxxxxxxxxxxxx"), ("b", "x"), ("c", "y"), ("d", "z")] =
      some "x" ∧
    strBytes "x" ≤ (MLCfg.mk 3 20 ["a", "b"]).maxValueBytes ∧
    dlookup "b" (limit_metadata (MLCfg.mk 3 20 ["a", "b"])
      [("a", "xxxxxxxxxxxxxxxxxxxx"), ("b", "x"), ("c", "y"), ("d", "z")]) = none := by
  decide

/-- C1 (amended): for every input with more than the configured maximum
number of tags, `limit_metadata` returns at most `max_tags` entries whose
total serialized size stays within `max_value_bytes`; a priority tag
present in the input is guaranteed a slot whenever, at the moment the
priority loop reaches it, a tag slot remains and its full value fits the
remaining byte budget (it may be truncated or dropped otherwise, even if
it individually fits the whole budget); every returned value is either
the input value of its key or a truncation of it ending in `"..."`; and
the truncation primitive returns exactly the longest UTF-8 prefix that
fits the byte budget it is given, found by binary search. -/
theorem C1_limit_metadata_amended (cfg : MLCfg) (md : List (String × String))
    (hmd : (dkeys md).Nodup) (hcount : md.length > cfg.maxTags) :
    (limit_metadata cfg md).length ≤ cfg.maxTags ∧
    byteTotal (limit_metadata cfg md) ≤ cfg.maxValueBytes ∧
    (∀ (T0 : List String) (t : String) (T1 : List String) (v : String),
      cfg.priorityTags = T0 ++ t :: T1 →
      dlookup t md = some v →
      (priPhase cfg md T0 (mlInit cfg)).slots > 0 →
      (priPhase cfg md T0 (mlInit cfg)).total + strBytes v ≤ cfg.maxValueBytes →
      t ∈ dkeys (limit_metadata cfg md)) ∧
    (∀ p ∈ limit_metadata cfg md, ∃ orig, dlookup p.1 md = some orig ∧
      (p.2 = orig ∨ ∃ m, p.2 = truncStr orig m ++ "...")) ∧
    (∀ (text : List Char) (maxB : Nat),
      truncate_to_bytes text maxB = text.take (fitLen text maxB) ∧
      byteLen (truncate_to_bytes text maxB) ≤ maxB ∧
      (∀ j ≤ text.length, byteLen (text.take j) ≤ maxB → j ≤ fitLen text maxB)) := by
  have hne : md ≠ [] := by
    intro h
    rw [h] at hcount
    simp at hcount
  have hitems : ∀ p ∈ md, ∃ orig, dlookup p.1 md = some orig ∧ p.2 = orig := by
    intro p hp
    exact ⟨p.2, dlookup_of_mem_nodup hmd (by simpa using hp), rfl⟩
  have hfinal : MLInv cfg md
      (restPhase cfg (priPhase cfg md cfg.priorityTags (mlInit cfg)) md) :=
    restPhase_inv cfg md md _
      (priPhase_inv cfg md cfg.priorityTags _ (mlInv_init cfg md)) hitems
  have hlm : limit_metadata cfg md =
      (restPhase cfg (priPhase cfg md cfg.priorityTags (mlInit cfg)) md).limited := by
    rw [limit_metadata, if_neg hne]
  obtain ⟨i1, i2, i3, i4, i5⟩ := hfinal
  refine ⟨by rw [hlm]; omega, by rw [hlm]; omega, ?_, by rw [hlm]; exact i5, ?_⟩
  · intro T0 t T1 v hsplit hlook hslots hfit
    rw [hlm, hsplit]
    apply restPhase_mem_mono
    rw [priPhase, List.foldl_append, List.foldl_cons]
    rw [show List.foldl (priStep cfg md) (mlInit cfg) T0 =
      priPhase cfg md T0 (mlInit cfg) from rfl]
    apply priPhase_mem_mono
    rw [priStep, hlook]
    simp only [if_pos hslots, if_pos hfit]
    exact (mem_dkeys_dinsert _).mpr (Or.inr rfl)
  · intro text maxB
    exact ⟨truncate_to_bytes_eq_take text maxB, byteLen_truncate_le text maxB,
      fun j hj hfit => le_fitLen_of_fits text maxB hj hfit⟩

/-- Witness for C1 (amended) on a concrete five-tag input against the
default limits. -/
theorem C1_limit_metadata_amended_witness :
    (limit_metadata (MLCfg.mk 3 20 ["a", "b"])
      [("a", "123"), ("b", "x"), ("c", "y"), ("d", "z"), ("e", "w")]).length ≤ 3 ∧
    byteTotal (limit_metadata (MLCfg.mk 3 20 ["a", "b"])
      [("a", "123"), ("b", "x"), ("c", "y"), ("d", "z"), ("e", "w")]) ≤ 20 := by
  have h := C1_limit_metadata_amended (MLCfg.mk 3 20 ["a", "b"])
    [("a", "123"), ("b", "x"), ("c", "y"), ("d", "z"), ("e", "w")] (by decide) (by decide)
  exact ⟨h.1, h.2.1⟩

/-! #### Run-1 characterization of the priority phase (duplicate-free
priority list) -/

theorem dkeys_cons {α : Type} (k : String) (v : α) (d : List (String × α)) :
    dkeys ((k, v) :: d) = k :: dkeys d := rfl

theorem sublist_of_cons_of_not_mem {l : List String} {a : String} {L : List String}
    (h : List.Sublist l (a :: L)) (ha : a ∉ l) : List.Sublist l L := by
  cases h with
  | cons _ h2 => exact h2
  | cons₂ _ h2 => exact absurd (List.mem_cons_self _ _) ha

theorem pairs_of_keys_cons {P : List (String × String)} {t : String} {T : List String}
    (hsub : List.Sublist (dkeys P) (t :: T)) (hmem : t ∈ dkeys P) (hnot : t ∉ T) :
    ∃ v P2, P = (t, v) :: P2 ∧ List.Sublist (dkeys P2) T := by
  cases P with
  | nil => simp [dkeys] at hmem
  | cons p P2 =>
    obtain ⟨k0, v0⟩ := p
    rw [dkeys, List.map_cons] at hsub
    cases hsub with
    | cons _ h2 =>
      exfalso
      exact hnot (h2.subset hmem)
    | cons₂ _ h2 =>
      exact ⟨v0, P2, rfl, h2⟩

/-- What one run of the priority loop does, relative to its start state:
it appends a list `D` of entries whose keys form a subsequence of the
(duplicate-free) priority list, consuming one slot and some bytes per
entry, and any priority tag present in the metadata but not added was
blocked — at the final state, either all slots are gone, or its full
value overflows the remaining budget which is itself at most 10 bytes. -/
theorem priPhase_adds (cfg : MLCfg) (md : List (String × String)) :
    ∀ (T : List String) (st : MLState), T.Nodup →
      (∀ k ∈ dkeys st.limited, k ∉ T) →
      ∃ D : List (String × String),
        (priPhase cfg md T st).limited = st.limited ++ D ∧
        List.Sublist (dkeys D) T ∧
        (∀ k ∈ dkeys D, k ∈ dkeys md) ∧
        D.length ≤ st.slots ∧
        (priPhase cfg md T st).slots = st.slots - D.length ∧
        st.total ≤ (priPhase cfg md T st).total ∧
        (∀ k v, k ∈ T → dlookup k md = some v → k ∉ dkeys D →
          ((priPhase cfg md T st).slots = 0 ∨
           (cfg.maxValueBytes < (priPhase cfg md T st).total + strBytes v ∧
            cfg.maxValueBytes - (priPhase cfg md T st).total ≤ 10))) := by
  intro T
  induction T with
  | nil =>
    intro st _ _
    exact ⟨[], by simp [priPhase], List.nil_sublist _, by simp [dkeys], by simp,
      by simp [priPhase], by simp [priPhase], by simp⟩
  | cons t T2 ih =>
    intro st hnd hdisj
    have hnd2 : T2.Nodup := (List.nodup_cons.mp hnd).2
    have htT2 : t ∉ T2 := (List.nodup_cons.mp hnd).1
    have htlim : t ∉ dkeys st.limited := by
      intro hmem
      exact hdisj t hmem (List.mem_cons_self _ _)
    have hphase : priPhase cfg md (t :: T2) st =
        priPhase cfg md T2 (priStep cfg md st t) := by
      rw [priPhase, List.foldl_cons]
      rfl
    rcases hlk : dlookup t md with _ | v
    · have hstep : priStep cfg md st t = st := by
        rw [priStep, hlk]
      obtain ⟨D, c1, c2, c3, c4, c5, c6, c7⟩ := ih st hnd2
        (fun k hk => fun hmem => hdisj k hk (List.mem_cons_of_mem _ hmem))
      rw [hphase, hstep]
      refine ⟨D, c1, c2.cons t, c3, c4, c5, c6, ?_⟩
      intro k w hk hw hkD
      rcases List.mem_cons.mp hk with rfl | hk2
      · rw [hlk] at hw
        exact Option.noConfusion hw
      · exact c7 k w hk2 hw hkD
    · by_cases hs : st.slots > 0
      · by_cases hfit : st.total + strBytes v ≤ cfg.maxValueBytes
        · have hstep : priStep cfg md st t =
              ⟨st.limited ++ [(t, v)], st.slots - 1, st.total + strBytes v⟩ := by
            rw [priStep, hlk]
            simp only [if_pos hs, if_pos hfit]
            rw [dinsert_of_not_mem v htlim]
          obtain ⟨D, c1, c2, c3, c4, c5, c6, c7⟩ := ih
            ⟨st.limited ++ [(t, v)], st.slots - 1, st.total + strBytes v⟩ hnd2
            (by
              intro k hk
              rw [show (⟨st.limited ++ [(t, v)], st.slots - 1,
                st.total + strBytes v⟩ : MLState).limited = st.limited ++ [(t, v)] from rfl,
                dkeys_append] at hk
              rcases List.mem_append.mp hk with hk1 | hk2
              · intro hmem
                exact hdisj k hk1 (List.mem_cons_of_mem _ hmem)
              · have : k = t := by simpa [dkeys] using hk2
                subst this
                exact htT2)
          rw [hphase, hstep]
          refine ⟨(t, v) :: D, ?_, ?_, ?_, ?_, ?_, ?_, ?_⟩
          · rw [c1]
            simp
          · rw [dkeys, List.map_cons]
            exact (c2.cons₂ t)
          · intro k hk
            rw [dkeys_cons] at hk
            rcases List.mem_cons.mp hk with rfl | hk2
            · exact (dlookup_isSome_iff k md).mp (by simp [hlk])
            · exact c3 k hk2
          · have c4b : D.length ≤ st.slots - 1 := c4
            simp only [List.length_cons]
            omega
          · have c4b : D.length ≤ st.slots - 1 := c4
            rw [c5]
            show st.slots - 1 - D.length = st.slots - ((t, v) :: D).length
            simp only [List.length_cons]
            omega
          · refine le_trans ?_ c6
            show st.total ≤ st.total + strBytes v
            omega
          · intro k w hk hw hkD
            rw [dkeys_cons] at hkD
            have hkT2 : k ∈ T2 := by
              rcases List.mem_cons.mp hk with rfl | hk2
              · exact absurd (List.mem_cons_self _ _) hkD
              · exact hk2
            have hkD2 : k ∉ dkeys D := fun hmem => hkD (List.mem_cons_of_mem _ hmem)
            exact c7 k w hkT2 hw hkD2
        · by_cases havail : cfg.maxValueBytes - st.total > 10
          · have hstep : priStep cfg md st t =
                ⟨st.limited ++ [(t, truncStr v (cfg.maxValueBytes - st.total - 3) ++ "...")],
                 st.slots - 1,
                 st.total + strBytes (truncStr v (cfg.maxValueBytes - st.total - 3) ++ "...")⟩ := by
              rw [priStep, hlk]
              simp only [if_pos hs, if_neg hfit, if_pos havail]
              rw [dinsert_of_not_mem _ htlim]
            obtain ⟨D, c1, c2, c3, c4, c5, c6, c7⟩ := ih
              ⟨st.limited ++ [(t, truncStr v (cfg.maxValueBytes - st.total - 3) ++ "...")],
               st.slots - 1,
               st.total + strBytes (truncStr v (cfg.maxValueBytes - st.total - 3) ++ "...")⟩ hnd2
              (by
                intro k hk
                rw [show (⟨st.limited ++
                  [(t, truncStr v (cfg.maxValueBytes - st.total - 3) ++ "...")],
                  st.slots - 1, _⟩ : MLState).limited = st.limited ++
                  [(t, truncStr v (cfg.maxValueBytes - st.total - 3) ++ "...")] from rfl,
                  dkeys_append] at hk
                rcases List.mem_append.mp hk with hk1 | hk2
                · intro hmem
                  exact hdisj k hk1 (List.mem_cons_of_mem _ hmem)
                · have : k = t := by simpa [dkeys] using hk2
                  subst this
                  exact htT2)
            rw [hphase, hstep]
            refine ⟨(t, truncStr v (cfg.maxValueBytes - st.total - 3) ++ "...") :: D,
              ?_, ?_, ?_, ?_, ?_, ?_, ?_⟩
            · rw [c1]
              simp
            · rw [dkeys, List.map_cons]
              exact (c2.cons₂ t)
            · intro k hk
              rw [dkeys_cons] at hk
              rcases List.mem_cons.mp hk with rfl | hk2
              · exact (dlookup_isSome_iff k md).mp (by simp [hlk])
              · exact c3 k hk2
            · have c4b : D.length ≤ st.slots - 1 := c4
              simp only [List.length_cons]
              omega
            · have c4b : D.length ≤ st.slots - 1 := c4
              rw [c5]
              show st.slots - 1 - D.length =
                st.slots - ((t, truncStr v (cfg.maxValueBytes - st.total - 3) ++ "...") :: D).length
              simp only [List.length_cons]
              omega
            · refine le_trans ?_ c6
              show st.total ≤
                st.total + strBytes (truncStr v (cfg.maxValueBytes - st.total - 3) ++ "...")
              omega
            · intro k w hk hw hkD
              rw [dkeys_cons] at hkD
              have hkT2 : k ∈ T2 := by
                rcases List.mem_cons.mp hk with rfl | hk2
                · exact absurd (List.mem_cons_self _ _) hkD
                · exact hk2
              have hkD2 : k ∉ dkeys D := fun hmem => hkD (List.mem_cons_of_mem _ hmem)
              exact c7 k w hkT2 hw hkD2
          · have hstep : priStep cfg md st t = st := by
              rw [priStep, hlk]
              simp only [if_pos hs, if_neg hfit, if_neg havail]
            obtain ⟨D, c1, c2, c3, c4, c5, c6, c7⟩ := ih st hnd2
              (fun k hk => fun hmem => hdisj k hk (List.mem_cons_of_mem _ hmem))
            rw [hphase, hstep]
            refine ⟨D, c1, c2.cons t, c3, c4, c5, c6, ?_⟩
            intro k w hk hw hkD
            rcases List.mem_cons.mp hk with rfl | hk2
            · rw [hlk] at hw
              injection hw with hw
              subst hw
              right
              constructor
              · omega
              · omega
            · exact c7 k w hk2 hw hkD
      · have hstep : priStep cfg md st t = st := by
          rw [priStep, hlk]
          simp only [if_neg hs]
        obtain ⟨D, c1, c2, c3, c4, c5, c6, c7⟩ := ih st hnd2
          (fun k hk => fun hmem => hdisj k hk (List.mem_cons_of_mem _ hmem))
        rw [hphase, hstep]
        refine ⟨D, c1, c2.cons t, c3, c4, c5, c6, ?_⟩
        intro k w hk hw hkD
        left
        omega

/-! #### Characterization of the second loop and of a replayed run -/

theorem byteTotal_nil : byteTotal [] = 0 := rfl

theorem byteTotal_cons (k v : String) (Q : List (String × String)) :
    byteTotal ((k, v) :: Q) = strBytes v + byteTotal Q := by
  simp [byteTotal]

/-- The second loop only appends entries whose keys come from the items
being iterated. -/
theorem restPhase_adds (cfg : MLCfg) :
    ∀ (items : List (String × String)) (st : MLState),
      ∃ Q : List (String × String),
        (restPhase cfg st items).limited = st.limited ++ Q ∧
        (∀ k ∈ dkeys Q, k ∈ dkeys items) := by
  intro items
  induction items with
  | nil =>
    intro st
    exact ⟨[], by simp [restPhase], by simp [dkeys]⟩
  | cons p rest ih =>
    intro st
    obtain ⟨k, v⟩ := p
    rw [restPhase]
    by_cases hcond : (dlookup k st.limited).isNone ∧ st.slots > 0
    · rw [if_pos hcond]
      have hkst : k ∉ dkeys st.limited := by
        have h1 := hcond.1
        rw [Option.isNone_iff_eq_none] at h1
        exact (dlookup_eq_none_iff k _).mp h1
      by_cases hfit : st.total + strBytes v ≤ cfg.maxValueBytes
      · rw [if_pos hfit]
        obtain ⟨Q2, h1, h2⟩ :=
          ih ⟨dinsert st.limited k v, st.slots - 1, st.total + strBytes v⟩
        refine ⟨(k, v) :: Q2, ?_, ?_⟩
        · rw [h1]
          show dinsert st.limited k v ++ Q2 = st.limited ++ (k, v) :: Q2
          rw [dinsert_of_not_mem v hkst]
          simp
        · intro k2 hk2
          rw [dkeys_cons] at hk2
          rcases List.mem_cons.mp hk2 with rfl | h3
          · rw [dkeys_cons]
            exact List.mem_cons_self _ _
          · rw [dkeys_cons]
            exact List.mem_cons_of_mem _ (h2 k2 h3)
      · rw [if_neg hfit]
        by_cases havail : cfg.maxValueBytes - st.total > 10
        · rw [if_pos havail]
          refine ⟨[(k, truncStr v (cfg.maxValueBytes - st.total - 3) ++ "...")], ?_, ?_⟩
          · show dinsert st.limited k
                (truncStr v (cfg.maxValueBytes - st.total - 3) ++ "...") =
              st.limited ++ [(k, truncStr v (cfg.maxValueBytes - st.total - 3) ++ "...")]
            rw [dinsert_of_not_mem _ hkst]
          · intro k2 hk2
            rw [dkeys_cons] at hk2
            rcases List.mem_cons.mp hk2 with rfl | h3
            · rw [dkeys_cons]
              exact List.mem_cons_self _ _
            · simp [dkeys] at h3
        · rw [if_neg havail]
          exact ⟨[], by simp, by simp [dkeys]⟩
    · rw [if_neg hcond]
      obtain ⟨Q2, h1, h2⟩ := ih st
      refine ⟨Q2, h1, ?_⟩
      intro k2 hk2
      rw [dkeys_cons]
      exact List.mem_cons_of_mem _ (h2 k2 hk2)

/-- A key that is byte-blocked (its full value overflows the budget while
at most 10 budget bytes remain) or slot-blocked on entry to the second
loop is never added by it: every item bearing that key hits the `break`
without storing it. -/
theorem restPhase_no_bad (cfg : MLCfg) (k v : String) :
    ∀ (items : List (String × String)) (st : MLState),
      (∀ p ∈ items, p.1 = k → p.2 = v) →
      k ∉ dkeys st.limited →
      (st.slots = 0 ∨ (cfg.maxValueBytes < st.total + strBytes v ∧
        cfg.maxValueBytes - st.total ≤ 10)) →
      k ∉ dkeys (restPhase cfg st items).limited := by
  intro items
  induction items with
  | nil =>
    intro st _ hk _
    exact hk
  | cons p rest ih =>
    intro st hval hk hblock
    obtain ⟨k2, w⟩ := p
    rw [restPhase]
    by_cases hcond : (dlookup k2 st.limited).isNone ∧ st.slots > 0
    · rw [if_pos hcond]
      have hs := hcond.2
      have hbudget : cfg.maxValueBytes < st.total + strBytes v ∧
          cfg.maxValueBytes - st.total ≤ 10 := by
        rcases hblock with h0 | hb
        · omega
        · exact hb
      by_cases hk2 : k2 = k
      · subst hk2
        have hw : w = v := hval (k2, w) (List.mem_cons_self _ _) rfl
        subst hw
        have hnfit : ¬(st.total + strBytes w ≤ cfg.maxValueBytes) := by omega
        rw [if_neg hnfit]
        have hnavail : ¬(cfg.maxValueBytes - st.total > 10) := by omega
        rw [if_neg hnavail]
        exact hk
      · by_cases hfit : st.total + strBytes w ≤ cfg.maxValueBytes
        · rw [if_pos hfit]
          apply ih
          · exact fun p hp => hval p (List.mem_cons_of_mem _ hp)
          · show k ∉ dkeys (dinsert st.limited k2 w)
            intro hmem
            rcases (mem_dkeys_dinsert w).mp hmem with h1 | h2
            · exact hk h1
            · exact hk2 h2.symm
          · right
            constructor
            · show cfg.maxValueBytes < st.total + strBytes w + strBytes v
              omega
            · show cfg.maxValueBytes - (st.total + strBytes w) ≤ 10
              omega
        · rw [if_neg hfit]
          have hnavail : ¬(cfg.maxValueBytes - st.total > 10) := by omega
          rw [if_neg hnavail]
          exact hk
    · rw [if_neg hcond]
      exact ih st (fun p hp => hval p (List.mem_cons_of_mem _ hp)) hk hblock

/-- Replaying the priority loop over an already-limited dictionary
`P0 ++ P1 ++ …` whose priority part `P1` lists its priority entries in
priority order: every `P1` entry fits fully (the whole dictionary is
within budget), so the loop just appends `P1`. -/
theorem priPhase_replay (cfg : MLCfg) (r : List (String × String)) :
    ∀ (T : List String) (P0 P1 : List (String × String)) (st : MLState),
      T.Nodup →
      List.Sublist (dkeys P1) T →
      (∀ p ∈ P1, dlookup p.1 r = some p.2) →
      (∀ t ∈ T, t ∉ dkeys P1 → dlookup t r = none) →
      st.limited = P0 →
      st.slots = cfg.maxTags - P0.length →
      st.total = byteTotal P0 →
      P0.length + P1.length ≤ cfg.maxTags →
      byteTotal P0 + byteTotal P1 ≤ cfg.maxValueBytes →
      (∀ k ∈ dkeys P1, k ∉ dkeys P0) →
      priPhase cfg r T st =
        ⟨P0 ++ P1, cfg.maxTags - (P0.length + P1.length),
          byteTotal P0 + byteTotal P1⟩ := by
  intro T
  induction T with
  | nil =>
    intro P0 P1 st _ hsub _ _ hlim hslots htot _ _ _
    have hP1 : P1 = [] := by
      have hn := List.sublist_nil.mp hsub
      cases P1 with
      | nil => rfl
      | cons q Q => simp [dkeys] at hn
    subst hP1
    have hst : st = (⟨P0, cfg.maxTags - P0.length, byteTotal P0⟩ : MLState) := by
      rw [← hslots, ← htot, ← hlim]
    rw [show priPhase cfg r [] st = st from rfl, hst]
    simp [byteTotal]
  | cons t T2 ih =>
    intro P0 P1 st hndT hsub hlookups hnone hlim hslots htot hlen hbytes hdisj
    have hndT2 : T2.Nodup := (List.nodup_cons.mp hndT).2
    have htT2 : t ∉ T2 := (List.nodup_cons.mp hndT).1
    have hphase : priPhase cfg r (t :: T2) st =
        priPhase cfg r T2 (priStep cfg r st t) := by
      rw [priPhase, List.foldl_cons]
      rfl
    rw [hphase]
    by_cases htP1 : t ∈ dkeys P1
    · obtain ⟨v, P2, rfl, hsub2⟩ := pairs_of_keys_cons hsub htP1 htT2
      have hlk : dlookup t r = some v := hlookups (t, v) (List.mem_cons_self _ _)
      have hs : st.slots > 0 := by
        rw [hslots]
        simp only [List.length_cons] at hlen
        omega
      have hfit : st.total + strBytes v ≤ cfg.maxValueBytes := by
        rw [htot]
        rw [byteTotal_cons] at hbytes
        omega
      have htnotP0 : t ∉ dkeys P0 := hdisj t htP1
      have hstep : priStep cfg r st t =
          ⟨P0 ++ [(t, v)], st.slots - 1, st.total + strBytes v⟩ := by
        rw [priStep, hlk]
        simp only [if_pos hs, if_pos hfit]
        rw [hlim, dinsert_of_not_mem v htnotP0]
      rw [hstep]
      have hndP1 : (dkeys ((t, v) :: P2)).Nodup := List.Nodup.sublist hsub hndT
      have htP2 : t ∉ dkeys P2 := by
        rw [dkeys_cons] at hndP1
        exact (List.nodup_cons.mp hndP1).1
      have happly := ih (P0 ++ [(t, v)]) P2
        ⟨P0 ++ [(t, v)], st.slots - 1, st.total + strBytes v⟩ hndT2 hsub2
        (fun p hp => hlookups p (List.mem_cons_of_mem _ hp))
        (by
          intro t2 ht2 hnot
          refine hnone t2 (List.mem_cons_of_mem _ ht2) ?_
          rw [dkeys_cons]
          intro hmem
          rcases List.mem_cons.mp hmem with rfl | h2
          · exact htT2 ht2
          · exact hnot h2)
        rfl
        (by
          show st.slots - 1 = cfg.maxTags - (P0 ++ [(t, v)]).length
          rw [hslots]
          simp only [List.length_append, List.length_cons, List.length_nil]
          omega)
        (by
          show st.total + strBytes v = byteTotal (P0 ++ [(t, v)])
          rw [htot, byteTotal_append, byteTotal_cons, byteTotal_nil]
          omega)
        (by
          simp only [List.length_append, List.length_cons, List.length_nil] at hlen ⊢
          omega)
        (by
          rw [byteTotal_cons] at hbytes
          rw [byteTotal_append, byteTotal_cons, byteTotal_nil]
          omega)
        (by
          intro k hk
          rw [dkeys_append]
          intro hmem
          rcases List.mem_append.mp hmem with h1 | h2
          · exact hdisj k (by rw [dkeys_cons]; exact List.mem_cons_of_mem _ hk) h1
          · rw [dkeys_cons] at h2
            rcases List.mem_cons.mp h2 with rfl | h3
            · exact htP2 hk
            · simp [dkeys] at h3)
      rw [happly]
      have e1 : (P0 ++ [(t, v)]) ++ P2 = P0 ++ (t, v) :: P2 := by simp
      have e2 : (P0 ++ [(t, v)]).length + P2.length =
          P0.length + ((t, v) :: P2).length := by
        simp only [List.length_append, List.length_cons, List.length_nil]
        omega
      have e3 : byteTotal (P0 ++ [(t, v)]) + byteTotal P2 =
          byteTotal P0 + byteTotal ((t, v) :: P2) := by
        rw [byteTotal_append, byteTotal_cons, byteTotal_cons, byteTotal_nil]
        omega
      rw [e1, e2, e3]
    · have hlk : dlookup t r = none := hnone t (List.mem_cons_self _ _) htP1
      have hstep : priStep cfg r st t = st := by rw [priStep, hlk]
      rw [hstep]
      exact ih P0 P1 st hndT2 (sublist_of_cons_of_not_mem hsub htP1)
        hlookups (fun t2 ht2 => hnone t2 (List.mem_cons_of_mem _ ht2))
        hlim hslots htot hlen hbytes hdisj

/-- Items whose keys are already stored are skipped by the second loop
without touching the state. -/
theorem restPhase_skip_forward (cfg : MLCfg) :
    ∀ (A B : List (String × String)) (st : MLState),
      (∀ p ∈ A, p.1 ∈ dkeys st.limited) →
      restPhase cfg st (A ++ B) = restPhase cfg st B := by
  intro A
  induction A with
  | nil => intro B st _; rfl
  | cons p A2 ih =>
    intro B st hmem
    obtain ⟨k, v⟩ := p
    rw [List.cons_append, restPhase]
    have hk : k ∈ dkeys st.limited := hmem (k, v) (List.mem_cons_self _ _)
    have hsome : (dlookup k st.limited).isSome := (dlookup_isSome_iff k _).mpr hk
    have hnc : ¬((dlookup k st.limited).isNone ∧ st.slots > 0) := by
      rintro ⟨h1, -⟩
      rw [Option.isNone_iff_eq_none] at h1
      rw [h1] at hsome
      simp at hsome
    rw [if_neg hnc]
    exact ih B st (fun q hq => hmem q (List.mem_cons_of_mem _ hq))

/-- When every item key is fresh, fits the byte budget collectively and
the slots suffice, the second loop appends all items. -/
theorem restPhase_addAll (cfg : MLCfg) :
    ∀ (Q : List (String × String)) (st : MLState) (L : List (String × String)) (s t0 : Nat),
      st.limited = L →
      st.slots = s →
      st.total = t0 →
      (dkeys (L ++ Q)).Nodup →
      Q.length ≤ s →
      t0 + byteTotal Q ≤ cfg.maxValueBytes →
      restPhase cfg st Q = ⟨L ++ Q, s - Q.length, t0 + byteTotal Q⟩ := by
  intro Q
  induction Q with
  | nil =>
    intro st L s t0 hlim hs ht _ _ _
    have hst : st = (⟨L, s, t0⟩ : MLState) := by
      rw [← hlim, ← hs, ← ht]
    rw [show restPhase cfg st [] = st from rfl, hst]
    simp [byteTotal]
  | cons q Q2 ih =>
    intro st L s t0 hlim hs ht hnd hslots hbytes
    obtain ⟨k, v⟩ := q
    have hkQ2L : k ∉ dkeys L := by
      rw [dkeys_append] at hnd
      intro hkL
      exact (List.disjoint_of_nodup_append hnd) hkL
        (by rw [dkeys_cons]; exact List.mem_cons_self _ _)
    rw [restPhase]
    have hcond : (dlookup k st.limited).isNone ∧ st.slots > 0 := by
      constructor
      · rw [hlim, Option.isNone_iff_eq_none]
        exact (dlookup_eq_none_iff k L).mpr hkQ2L
      · rw [hs]
        simp only [List.length_cons] at hslots
        omega
    rw [if_pos hcond]
    have hfit : st.total + strBytes v ≤ cfg.maxValueBytes := by
      rw [ht]
      rw [byteTotal_cons] at hbytes
      omega
    rw [if_pos hfit]
    have hstep := ih ⟨dinsert st.limited k v, st.slots - 1, st.total + strBytes v⟩
      (L ++ [(k, v)]) (s - 1) (t0 + strBytes v)
      (by
        show dinsert st.limited k v = L ++ [(k, v)]
        rw [hlim, dinsert_of_not_mem v hkQ2L])
      (by
        show st.slots - 1 = s - 1
        rw [hs])
      (by
        show st.total + strBytes v = t0 + strBytes v
        rw [ht])
      (by
        rw [List.append_assoc, List.singleton_append]
        exact hnd)
      (by
        simp only [List.length_cons] at hslots
        omega)
      (by
        rw [byteTotal_cons] at hbytes
        omega)
    rw [hstep]
    have e1 : (L ++ [(k, v)]) ++ Q2 = L ++ (k, v) :: Q2 := by simp
    have e2 : s - 1 - Q2.length = s - ((k, v) :: Q2).length := by
      simp only [List.length_cons]
      omega
    have e3 : t0 + strBytes v + byteTotal Q2 = t0 + byteTotal ((k, v) :: Q2) := by
      rw [byteTotal_cons]
      omega
    rw [e1, e2, e3]

/-- C10 counterexample: with duplicated priority tags `[b, b, b]`,
`max_tags = 3` and `max_value_bytes = 45`, a single 28-byte value is
truncated a second time when `limit_metadata` is applied to its own
output, because the duplicated tag re-adds the value and inflates the
byte counter past the budget on each run. -/
theorem C10_limit_metadata_counterexample :
    limit_metadata (MLCfg.mk 3 45 ["b", "b", "b"])
        (limit_metadata (MLCfg.mk 3 45 ["b", "b", "b"])
          [("b", "xxxxxxxxxxxxxxxxxxxxxxxxxxxx")]) ≠
      limit_metadata (MLCfg.mk 3 45 ["b", "b", "b"])
        [("b", "xxxxxxxxxxxxxxxxxxxxxxxxxxxx")] := by
  decide

/-- C10 (amended): `limit_metadata` is idempotent provided the configured
priority-tag list has no duplicate entries (the metadata argument, being a
Python dict, has no duplicate keys).  With a duplicated priority tag the
function can re-truncate its own output, so the proviso is necessary. -/
theorem C10_limit_metadata_amended (cfg : MLCfg) (md : List (String × String))
    (hT : cfg.priorityTags.Nodup) (hmd : (dkeys md).Nodup) :
    limit_metadata cfg (limit_metadata cfg md) = limit_metadata cfg md := by
  by_cases hmd0 : md = []
  · subst hmd0
    simp [limit_metadata]
  · have hr : limit_metadata cfg md =
        (restPhase cfg (priPhase cfg md cfg.priorityTags (mlInit cfg)) md).limited := by
      rw [limit_metadata, if_neg hmd0]
    obtain ⟨P, hP1, hPsub, hPmd, hPlen, hPslots, hPtot, hPskip⟩ :=
      priPhase_adds cfg md cfg.priorityTags (mlInit cfg) hT
        (by intro k hk; simp [mlInit, dkeys] at hk)
    have hP1x : (priPhase cfg md cfg.priorityTags (mlInit cfg)).limited = P := by
      rw [hP1]
      simp [mlInit]
    obtain ⟨Q, hQ1, hQmd⟩ :=
      restPhase_adds cfg md (priPhase cfg md cfg.priorityTags (mlInit cfg))
    have hrPQ : limit_metadata cfg md = P ++ Q := by
      rw [hr, hQ1, hP1x]
    have hitems : ∀ p ∈ md, ∃ orig, dlookup p.1 md = some orig ∧ p.2 = orig := by
      intro p hp
      exact ⟨p.2, dlookup_of_mem_nodup hmd (by simpa using hp), rfl⟩
    have hfinal : MLInv cfg md
        (restPhase cfg (priPhase cfg md cfg.priorityTags (mlInit cfg)) md) :=
      restPhase_inv cfg md md _
        (priPhase_inv cfg md cfg.priorityTags _ (mlInv_init cfg md)) hitems
    obtain ⟨hndr, hbtr, htotr, hlenr, -⟩ := hfinal
    rw [hQ1, hP1x] at hndr hbtr hlenr
    have hndPQ : (dkeys (P ++ Q)).Nodup := hndr
    have hbtPQ : byteTotal (P ++ Q) ≤ cfg.maxValueBytes := by omega
    have hlenPQ : (P ++ Q).length ≤ cfg.maxTags := by omega
    have hnoneTags : ∀ t ∈ cfg.priorityTags, t ∉ dkeys P →
        dlookup t (P ++ Q) = none := by
      intro t htT htP
      rw [dlookup_eq_none_iff, dkeys_append]
      intro hmem
      rcases List.mem_append.mp hmem with h1 | h2
      · exact htP h1
      · have htmd : t ∈ dkeys md := hQmd t h2
        have hsome : (dlookup t md).isSome := (dlookup_isSome_iff t md).mpr htmd
        obtain ⟨v0, hv0⟩ := Option.isSome_iff_exists.mp hsome
        have hblocked := hPskip t v0 htT hv0 htP
        have hnob := restPhase_no_bad cfg t v0 md
          (priPhase cfg md cfg.priorityTags (mlInit cfg))
          (by
            intro p hp hpk
            have hlp : dlookup p.1 md = some p.2 :=
              dlookup_of_mem_nodup hmd (by simpa using hp)
            rw [hpk, hv0] at hlp
            injection hlp with h
            exact h.symm)
          (by rw [hP1x]; exact htP)
          hblocked
        rw [hQ1, hP1x] at hnob
        exact hnob (by rw [dkeys_append]; exact List.mem_append.mpr (Or.inr h2))
    by_cases hr0 : limit_metadata cfg md = []
    · rw [hr0]
      simp [limit_metadata]
    · rw [limit_metadata, if_neg hr0, hrPQ]
      have hlookupP : ∀ p ∈ P, dlookup p.1 (P ++ Q) = some p.2 := by
        intro p hp
        exact dlookup_of_mem_nodup hndPQ (by simpa using List.mem_append.mpr (Or.inl hp))
      have hrep := priPhase_replay cfg (P ++ Q) cfg.priorityTags [] P (mlInit cfg)
        hT hPsub hlookupP hnoneTags
        rfl
        (by simp [mlInit])
        (by simp [mlInit, byteTotal])
        (by
          rw [List.length_append] at hlenPQ
          simp only [List.length_nil]
          omega)
        (by
          rw [byteTotal_append] at hbtPQ
          rw [byteTotal_nil]
          omega)
        (by intro k _; simp [dkeys])
      rw [hrep]
      have hstate : (⟨([] : List (String × String)) ++ P,
          cfg.maxTags - (List.length ([] : List (String × String)) + P.length),
          byteTotal [] + byteTotal P⟩ : MLState) =
          ⟨P, cfg.maxTags - P.length, byteTotal P⟩ := by
        simp [byteTotal]
      rw [hstate]
      have hskipf := restPhase_skip_forward cfg P Q
        ⟨P, cfg.maxTags - P.length, byteTotal P⟩
        (by
          intro p hp
          show p.1 ∈ dkeys P
          exact List.mem_map_of_mem Prod.fst hp)
      rw [hskipf]
      have haddall := restPhase_addAll cfg Q
        ⟨P, cfg.maxTags - P.length, byteTotal P⟩
        P (cfg.maxTags - P.length) (byteTotal P)
        rfl rfl rfl
        hndPQ
        (by
          rw [List.length_append] at hlenPQ
          omega)
        (by
          rw [byteTotal_append] at hbtPQ
          omega)
      rw [haddall]

/-! #### The cleanup passes, pass by pass -/

theorem takeWhile_of_all (p : Char → Bool) :
    ∀ l : List Char, (∀ c ∈ l, p c = true) → l.takeWhile p = l := by
  intro l
  induction l with
  | nil => intro _; rfl
  | cons c rest ih =>
    intro h
    rw [List.takeWhile_cons, if_pos (h c (List.mem_cons_self _ _)),
      ih (fun d hd => h d (List.mem_cons_of_mem _ hd))]

theorem dropWhile_of_all (p : Char → Bool) :
    ∀ l : List Char, (∀ c ∈ l, p c = true) → l.dropWhile p = [] := by
  intro l
  induction l with
  | nil => intro _; rfl
  | cons c rest ih =>
    intro h
    rw [List.dropWhile_cons, if_pos (h c (List.mem_cons_self _ _)),
      ih (fun d hd => h d (List.mem_cons_of_mem _ hd))]

theorem takeWhile_append_of_all (p : Char → Bool) :
    ∀ (u l : List Char), (∀ c ∈ u, p c = true) →
      (u ++ l).takeWhile p = u ++ l.takeWhile p := by
  intro u
  induction u with
  | nil => intro l _; simp
  | cons c u2 ih =>
    intro l h
    rw [List.cons_append, List.takeWhile_cons, if_pos (h c (List.mem_cons_self _ _)),
      ih l (fun d hd => h d (List.mem_cons_of_mem _ hd)), List.cons_append]

theorem dropWhile_append_of_all (p : Char → Bool) :
    ∀ (u l : List Char), (∀ c ∈ u, p c = true) →
      (u ++ l).dropWhile p = l.dropWhile p := by
  intro u
  induction u with
  | nil => intro l _; simp
  | cons c u2 ih =>
    intro l h
    rw [List.cons_append, List.dropWhile_cons, if_pos (h c (List.mem_cons_self _ _)),
      ih l (fun d hd => h d (List.mem_cons_of_mem _ hd))]

theorem joinHyphenBreaksF_nil (fuel : Nat) : joinHyphenBreaksF fuel [] = [] := by
  cases fuel <;> rfl

theorem joinHyphenBreaksF_cons (fuel : Nat) (c : Char) (rest : List Char) :
    joinHyphenBreaksF (fuel + 1) (c :: rest) =
      if isWordChar c then
        match (c :: rest).dropWhile isWordChar with
        | '-' :: '\n' :: d :: rest3 =>
          if isWordChar d then
            (c :: rest).takeWhile isWordChar ++ (d :: rest3).takeWhile isWordChar ++
              joinHyphenBreaksF fuel ((d :: rest3).dropWhile isWordChar)
          else
            (c :: rest).takeWhile isWordChar ++ joinHyphenBreaksF fuel ('-' :: '\n' :: d :: rest3)
        | other => (c :: rest).takeWhile isWordChar ++ joinHyphenBreaksF fuel other
      else c :: joinHyphenBreaksF fuel rest := rfl

/-- The hyphen-join substitution: a word run broken by `-` and a newline
is rejoined (statement for a whole input of that shape). -/
theorem joinHyphenBreaks_join (u v : List Char) (hu : u ≠ []) (hv : v ≠ [])
    (hwu : ∀ c ∈ u, isWordChar c = true) (hwv : ∀ c ∈ v, isWordChar c = true) :
    joinHyphenBreaks (u ++ '-' :: '\n' :: v) = u ++ v := by
  obtain ⟨a, u2, rfl⟩ : ∃ a u2, u = a :: u2 := by
    cases u with
    | nil => exact absurd rfl hu
    | cons a u2 => exact ⟨a, u2, rfl⟩
  obtain ⟨d, v2, rfl⟩ : ∃ d v2, v = d :: v2 := by
    cases v with
    | nil => exact absurd rfl hv
    | cons d v2 => exact ⟨d, v2, rfl⟩
  have hdrop : (a :: (u2 ++ '-' :: '\n' :: d :: v2)).dropWhile isWordChar =
      '-' :: '\n' :: d :: v2 := by
    rw [show a :: (u2 ++ '-' :: '\n' :: d :: v2) =
      (a :: u2) ++ '-' :: '\n' :: d :: v2 from rfl]
    rw [dropWhile_append_of_all isWordChar (a :: u2) _ hwu]
    rw [List.dropWhile_cons, if_neg (by decide)]
  have htake : (a :: (u2 ++ '-' :: '\n' :: d :: v2)).takeWhile isWordChar = a :: u2 := by
    rw [show a :: (u2 ++ '-' :: '\n' :: d :: v2) =
      (a :: u2) ++ '-' :: '\n' :: d :: v2 from rfl]
    rw [takeWhile_append_of_all isWordChar (a :: u2) _ hwu]
    rw [List.takeWhile_cons, if_neg (by decide), List.append_nil]
  have htakev : (d :: v2).takeWhile isWordChar = d :: v2 := takeWhile_of_all _ _ hwv
  have hdropv : (d :: v2).dropWhile isWordChar = [] := dropWhile_of_all _ _ hwv
  have hstep : ∀ f : Nat, joinHyphenBreaksF (f + 1) (a :: (u2 ++ '-' :: '\n' :: d :: v2)) =
      if isWordChar d then
        (a :: (u2 ++ '-' :: '\n' :: d :: v2)).takeWhile isWordChar ++
          (d :: v2).takeWhile isWordChar ++
          joinHyphenBreaksF f ((d :: v2).dropWhile isWordChar)
      else
        (a :: (u2 ++ '-' :: '\n' :: d :: v2)).takeWhile isWordChar ++
          joinHyphenBreaksF f ('-' :: '\n' :: d :: v2) := by
    intro f
    conv_lhs => rw [joinHyphenBreaksF_cons, if_pos (hwu a (List.mem_cons_self _ _)), hdrop]
    rfl
  rw [joinHyphenBreaks]
  rw [show (a :: u2) ++ '-' :: '\n' :: d :: v2 =
    a :: (u2 ++ '-' :: '\n' :: d :: v2) from rfl]
  rw [hstep]
  rw [if_pos (hwv d (List.mem_cons_self _ _)), htake, htakev, hdropv, joinHyphenBreaksF_nil]
  simp

/-- A single newline in non-whitespace context becomes a space. -/
theorem collapse_single (x y : Char) (hx : isPySpace x = false) (hy : isPySpace y = false) :
    collapseNewlines [x, '\n', y] = [x, ' ', y] := by
  have hxn : ¬(x = '\n') := by
    intro h
    rw [h] at hx
    exact absurd hx (by decide)
  have hyn : ¬(y = '\n') := by
    intro h
    rw [h] at hy
    exact absurd hy (by decide)
  have hyd : decide (y = '\n') = false := decide_eq_false hyn
  have hk1 : nlKept [x, '\n', y] 1 = false := rfl
  rw [collapseNewlines]
  rw [show ([x, '\n', y] : List Char).length = 3 from rfl,
    show List.range 3 = [0, 1, 2] from rfl]
  simp only [List.map_cons, List.map_nil]
  rw [show (([x, '\n', y] : List Char).getD 0 ' ') = x from rfl,
    show (([x, '\n', y] : List Char).getD 1 ' ') = '\n' from rfl,
    show (([x, '\n', y] : List Char).getD 2 ' ') = y from rfl]
  rw [if_neg (show ¬(x = '\n' ∧ ¬(nlKept [x, '\n', y] 0 = true)) from fun h => hxn h.1)]
  rw [if_pos (show ('\n' : Char) = '\n' ∧ ¬(nlKept [x, '\n', y] 1 = true) from
    ⟨rfl, by rw [hk1]; simp⟩)]
  rw [if_neg (show ¬(y = '\n' ∧ ¬(nlKept [x, '\n', y] 2 = true)) from fun h => hyn h.1)]

/-- Both newlines of a lone blank-line break in non-whitespace context
become spaces: the pass does NOT preserve such a paragraph break. -/
theorem collapse_double (x y : Char) (hx : isPySpace x = false) (hy : isPySpace y = false) :
    collapseNewlines [x, '\n', '\n', y] = [x, ' ', ' ', y] := by
  have hxn : ¬(x = '\n') := by
    intro h
    rw [h] at hx
    exact absurd hx (by decide)
  have hyn : ¬(y = '\n') := by
    intro h
    rw [h] at hy
    exact absurd hy (by decide)
  have hxd : decide (x = '\n') = false := decide_eq_false hxn
  have hyd : decide (y = '\n') = false := decide_eq_false hyn
  have hk1 : nlKept [x, '\n', '\n', y] 1 = decide (y = '\n') := rfl
  have hk2 : nlKept [x, '\n', '\n', y] 2 = ((decide (x = '\n') && true) || false) := rfl
  rw [collapseNewlines]
  rw [show ([x, '\n', '\n', y] : List Char).length = 4 from rfl,
    show List.range 4 = [0, 1, 2, 3] from rfl]
  simp only [List.map_cons, List.map_nil]
  rw [show (([x, '\n', '\n', y] : List Char).getD 0 ' ') = x from rfl,
    show (([x, '\n', '\n', y] : List Char).getD 1 ' ') = '\n' from rfl,
    show (([x, '\n', '\n', y] : List Char).getD 2 ' ') = '\n' from rfl,
    show (([x, '\n', '\n', y] : List Char).getD 3 ' ') = y from rfl]
  rw [if_neg (show ¬(x = '\n' ∧ ¬(nlKept [x, '\n', '\n', y] 0 = true)) from
    fun h => hxn h.1)]
  rw [if_pos (show ('\n' : Char) = '\n' ∧ ¬(nlKept [x, '\n', '\n', y] 1 = true) from
    ⟨rfl, by rw [hk1, hyd]; simp⟩)]
  rw [if_pos (show ('\n' : Char) = '\n' ∧ ¬(nlKept [x, '\n', '\n', y] 2 = true) from
    ⟨rfl, by rw [hk2, hxd]; simp⟩)]
  rw [if_neg (show ¬(y = '\n' ∧ ¬(nlKept [x, '\n', '\n', y] 3 = true)) from
    fun h => hyn h.1)]

/-- A triple newline keeps its outer newlines (the middle one becomes a
space): blank-line runs with inner whitespace context survive the pass. -/
theorem collapse_triple (x y : Char) (hx : isPySpace x = false) (hy : isPySpace y = false) :
    collapseNewlines [x, '\n', '\n', '\n', y] = [x, '\n', ' ', '\n', y] := by
  have hxn : ¬(x = '\n') := by
    intro h
    rw [h] at hx
    exact absurd hx (by decide)
  have hyn : ¬(y = '\n') := by
    intro h
    rw [h] at hy
    exact absurd hy (by decide)
  have hxd : decide (x = '\n') = false := decide_eq_false hxn
  have hyd : decide (y = '\n') = false := decide_eq_false hyn
  have hk1 : nlKept [x, '\n', '\n', '\n', y] 1 = true := rfl
  have hk2 : nlKept [x, '\n', '\n', '\n', y] 2 =
      ((decide (x = '\n') && true) || decide (y = '\n')) := rfl
  have hk3 : nlKept [x, '\n', '\n', '\n', y] 3 = true := rfl
  rw [collapseNewlines]
  rw [show ([x, '\n', '\n', '\n', y] : List Char).length = 5 from rfl,
    show List.range 5 = [0, 1, 2, 3, 4] from rfl]
  simp only [List.map_cons, List.map_nil]
  rw [show (([x, '\n', '\n', '\n', y] : List Char).getD 0 ' ') = x from rfl,
    show (([x, '\n', '\n', '\n', y] : List Char).getD 1 ' ') = '\n' from rfl,
    show (([x, '\n', '\n', '\n', y] : List Char).getD 2 ' ') = '\n' from rfl,
    show (([x, '\n', '\n', '\n', y] : List Char).getD 3 ' ') = '\n' from rfl,
    show (([x, '\n', '\n', '\n', y] : List Char).getD 4 ' ') = y from rfl]
  rw [if_neg (show ¬(x = '\n' ∧ ¬(nlKept [x, '\n', '\n', '\n', y] 0 = true)) from
    fun h => hxn h.1)]
  rw [if_neg (show ¬(('\n' : Char) = '\n' ∧
      ¬(nlKept [x, '\n', '\n', '\n', y] 1 = true)) from
    fun h => h.2 (by rw [hk1]))]
  rw [if_pos (show ('\n' : Char) = '\n' ∧
      ¬(nlKept [x, '\n', '\n', '\n', y] 2 = true) from
    ⟨rfl, by rw [hk2, hxd, hyd]; simp⟩)]
  rw [if_neg (show ¬(('\n' : Char) = '\n' ∧
      ¬(nlKept [x, '\n', '\n', '\n', y] 3 = true)) from
    fun h => h.2 (by rw [hk3]))]
  rw [if_neg (show ¬(y = '\n' ∧ ¬(nlKept [x, '\n', '\n', '\n', y] 4 = true)) from
    fun h => hyn h.1)]

theorem normalizeBlankRunsF_nil (fuel : Nat) : normalizeBlankRunsF fuel [] = [] := by
  cases fuel <;> rfl

theorem normalizeBlankRunsF_cons (fuel : Nat) (c : Char) (rest : List Char) :
    normalizeBlankRunsF (fuel + 1) (c :: rest) =
      if c = '\n' then
        if '\n' ∈ rest.takeWhile isPySpace then
          '\n' :: '\n' :: normalizeBlankRunsF fuel
            (((rest.takeWhile isPySpace).reverse.takeWhile (· ≠ '\n')).reverse ++
              rest.drop (rest.takeWhile isPySpace).length)
        else c :: normalizeBlankRunsF fuel rest
      else c :: normalizeBlankRunsF fuel rest := rfl

/-- A whole blank-line run (`\n`, whitespace containing at least the final
`\n`) is normalized to exactly one blank line. -/
theorem normalizeBlankRuns_blankRun (w : List Char) (hw : ∀ c ∈ w, isPySpace c = true) :
    normalizeBlankRuns ('\n' :: w ++ ['\n']) = ['\n', '\n'] := by
  have hall : ∀ c ∈ w ++ ['\n'], isPySpace c = true := by
    intro c hc
    rcases List.mem_append.mp hc with h | h
    · exact hw c h
    · rw [List.mem_singleton.mp h]
      decide
  have ht : (w ++ ['\n']).takeWhile isPySpace = w ++ ['\n'] := takeWhile_of_all _ _ hall
  rw [normalizeBlankRuns]
  rw [show ('\n' :: w ++ ['\n'] : List Char) = '\n' :: (w ++ ['\n']) from by simp]
  rw [normalizeBlankRunsF_cons, if_pos rfl, ht]
  rw [if_pos (List.mem_append.mpr (Or.inr (List.mem_singleton.mpr rfl)))]
  rw [show (w ++ ['\n']).reverse = '\n' :: w.reverse from by simp]
  rw [List.takeWhile_cons, if_neg (by decide)]
  rw [List.drop_length]
  rw [show (([] : List Char).reverse ++ ([] : List Char)) = [] from rfl]
  rw [normalizeBlankRunsF_nil]

theorem stripSlashX_cons (c : Char) (rest : List Char) :
    stripSlashX (c :: rest) =
      if c = '/' ∨ c = 'X' then stripSlashX rest else c :: stripSlashX rest := rfl

/-- `[/X]` is a character class: the pass removes every `/` and every `X`
individually, i.e. it is a pointwise filter. -/
theorem stripSlashX_eq_filter :
    ∀ l : List Char, stripSlashX l = l.filter (fun c => decide (c ≠ '/' ∧ c ≠ 'X')) := by
  intro l
  induction l with
  | nil => rfl
  | cons c rest ih =>
    rw [stripSlashX_cons, List.filter_cons]
    by_cases h : c = '/' ∨ c = 'X'
    · have hd : decide (c ≠ '/' ∧ c ≠ 'X') = false := decide_eq_false (by
        intro hc
        rcases h with h | h
        · exact hc.1 h
        · exact hc.2 h)
      rw [if_pos h, hd]
      simp [ih]
    · have hd : decide (c ≠ '/' ∧ c ≠ 'X') = true := decide_eq_true
        ⟨fun h1 => h (Or.inl h1), fun h2 => h (Or.inr h2)⟩
      rw [if_neg h, hd]
      simp [ih]

theorem stripUEscapesF_nil (fuel : Nat) : stripUEscapesF fuel [] = [] := by
  cases fuel <;> rfl

theorem stripUEscapesF_cons (fuel : Nat) (c : Char) (rest : List Char) :
    stripUEscapesF (fuel + 1) (c :: rest) =
      if c = '\\' then
        match rest with
        | 'u' :: ds =>
          if (ds.takeWhile isHexDigit).length = 0 then c :: stripUEscapesF fuel ('u' :: ds)
          else ' ' :: stripUEscapesF fuel (ds.drop (ds.takeWhile isHexDigit).length)
        | other => c :: stripUEscapesF fuel other
      else c :: stripUEscapesF fuel rest := rfl

theorem stripUEscapesF_no_bs :
    ∀ l : List Char, ('\\' : Char) ∉ l → ∀ fuel, stripUEscapesF fuel l = l := by
  intro l
  induction l with
  | nil => intro _ fuel; cases fuel <;> rfl
  | cons c rest ih =>
    intro h fuel
    cases fuel with
    | zero => rfl
    | succ f =>
      have hc : ¬(c = '\\') := by
        intro e
        subst e
        exact h (List.mem_cons_self _ _)
      rw [stripUEscapesF_cons, if_neg hc, ih (fun hm => h (List.mem_cons_of_mem _ hm)) f]

theorem stripUEscapesF_spec :
    ∀ (pre hs post : List Char) (fuel : Nat),
      ('\\' : Char) ∉ pre → hs ≠ [] → (∀ c ∈ hs, isHexDigit c = true) →
      post.takeWhile isHexDigit = [] → ('\\' : Char) ∉ post →
      fuel ≥ pre.length + 1 →
      stripUEscapesF fuel (pre ++ '\\' :: 'u' :: (hs ++ post)) = pre ++ ' ' :: post := by
  intro pre
  induction pre with
  | nil =>
    intro hs post fuel _ hne hhex hpost hnb hfuel
    cases fuel with
    | zero => omega
    | succ f =>
      rw [List.nil_append, List.nil_append, stripUEscapesF_cons, if_pos rfl]
      show (if ((hs ++ post).takeWhile isHexDigit).length = 0 then
          '\\' :: stripUEscapesF f ('u' :: (hs ++ post))
        else ' ' :: stripUEscapesF f
          ((hs ++ post).drop ((hs ++ post).takeWhile isHexDigit).length)) = ' ' :: post
      have ht : (hs ++ post).takeWhile isHexDigit = hs := by
        rw [takeWhile_append_of_all isHexDigit hs post hhex, hpost, List.append_nil]
      rw [ht]
      rw [if_neg (fun h0 => hne (List.length_eq_zero.mp h0))]
      rw [List.drop_left]
      rw [stripUEscapesF_no_bs post hnb f]
  | cons c pre2 ih =>
    intro hs post fuel hnb hne hhex hpost hnbp hfuel
    cases fuel with
    | zero =>
      rw [List.length_cons] at hfuel
      omega
    | succ f =>
      have hc : ¬(c = '\\') := by
        intro e
        subst e
        exact hnb (List.mem_cons_self _ _)
      rw [List.cons_append, stripUEscapesF_cons, if_neg hc]
      rw [ih hs post f (fun hm => hnb (List.mem_cons_of_mem _ hm)) hne hhex hpost hnbp
        (by rw [List.length_cons] at hfuel; omega)]
      rw [List.cons_append]

/-- The `\uXXXX`-artifact pass: a backslash-`u` followed by a nonempty
greedy hex run becomes a single space; surrounding backslash-free text is
untouched. -/
theorem stripUEscapes_spec (pre hs post : List Char)
    (h1 : ('\\' : Char) ∉ pre) (h2 : hs ≠ []) (h3 : ∀ c ∈ hs, isHexDigit c = true)
    (h4 : post.takeWhile isHexDigit = []) (h5 : ('\\' : Char) ∉ post) :
    stripUEscapes (pre ++ '\\' :: 'u' :: (hs ++ post)) = pre ++ ' ' :: post := by
  rw [stripUEscapes]
  exact stripUEscapesF_spec pre hs post _ h1 h2 h3 h4 h5
    (by rw [List.length_append]; omega)

/-- C9 counterexample: in `p\n\nqXr` there is no literal `/X` sequence
(indeed no `/` at all), yet `cleanup` removes the lone `X`; and the
blank-line paragraph break `\n\n` is collapsed to two spaces rather than
preserved. -/
theorem C9_cleanup_counterexample :
    cleanup "p\n\nqXr" = "p  qr" ∧
    ('/' : Char) ∉ "p\n\nqXr".data ∧
    ('X' : Char) ∈ "p\n\nqXr".data ∧
    ('X' : Char) ∉ (cleanup "p\n\nqXr").data := by
  decide

/-- C9 (amended): pass-by-pass behaviour of `cleanup`: (1) hyphen-broken
word runs across a line break are rejoined; (2) a newline in
non-whitespace context becomes a space — including BOTH newlines of a
lone blank-line paragraph break, which becomes two spaces, while a
triple-newline run keeps its outer newlines and then normalizes to
exactly one blank line; (3) a blank-line run `\n..\s..\n` is normalized
to exactly `\n\n`; (4) `[/X]` is a character class: every `/` and every
`X` is removed individually, a pointwise filter — not just literal `/X`
pairs; (5) a `\u` followed by a nonempty hex run is blanked to one
space. -/
theorem C9_cleanup_amended :
    (∀ u v : List Char, u ≠ [] → v ≠ [] → (∀ c ∈ u, isWordChar c = true) →
      (∀ c ∈ v, isWordChar c = true) →
      joinHyphenBreaks (u ++ '-' :: '\n' :: v) = u ++ v) ∧
    (∀ x y : Char, isPySpace x = false → isPySpace y = false →
      collapseNewlines [x, '\n', y] = [x, ' ', y] ∧
      collapseNewlines [x, '\n', '\n', y] = [x, ' ', ' ', y] ∧
      normalizeBlankRuns (collapseNewlines [x, '\n', '\n', '\n', y]) =
        [x, '\n', '\n', y]) ∧
    (∀ w : List Char, (∀ c ∈ w, isPySpace c = true) →
      normalizeBlankRuns ('\n' :: w ++ ['\n']) = ['\n', '\n']) ∧
    (∀ l : List Char, stripSlashX l = l.filter (fun c => decide (c ≠ '/' ∧ c ≠ 'X'))) ∧
    (∀ pre hs post : List Char, ('\\' : Char) ∉ pre → hs ≠ [] →
      (∀ c ∈ hs, isHexDigit c = true) → post.takeWhile isHexDigit = [] →
      ('\\' : Char) ∉ post →
      stripUEscapes (pre ++ '\\' :: 'u' :: (hs ++ post)) = pre ++ ' ' :: post) := by
  refine ⟨joinHyphenBreaks_join, ?_, normalizeBlankRuns_blankRun,
    stripSlashX_eq_filter, stripUEscapes_spec⟩
  intro x y hx hy
  refine ⟨collapse_single x y hx hy, collapse_double x y hx hy, ?_⟩
  rw [collapse_triple x y hx hy]
  have hxn : ¬(x = '\n') := by
    intro h
    rw [h] at hx
    exact absurd hx (by decide)
  have hyn : ¬(y = '\n') := by
    intro h
    rw [h] at hy
    exact absurd hy (by decide)
  rw [normalizeBlankRuns]
  rw [show ([x, '\n', ' ', '\n', y] : List Char).length = 4 + 1 from rfl]
  rw [show ([x, '\n', ' ', '\n', y] : List Char) =
    x :: ['\n', ' ', '\n', y] from rfl]
  rw [normalizeBlankRunsF_cons, if_neg hxn]
  rw [show (4 : Nat) = 3 + 1 from rfl]
  rw [normalizeBlankRunsF_cons, if_pos rfl]
  have ht : ([' ', '\n', y] : List Char).takeWhile isPySpace = [' ', '\n'] := by
    rw [List.takeWhile_cons, if_pos (by decide), List.takeWhile_cons, if_pos (by decide),
      List.takeWhile_cons, if_neg (by simp [hy])]
  rw [ht]
  rw [if_pos (by decide)]
  rw [show ((([' ', '\n'] : List Char).reverse.takeWhile (· ≠ '\n')).reverse ++
    ([' ', '\n', y] : List Char).drop ([' ', '\n'] : List Char).length) = [y] from rfl]
  rw [show (3 : Nat) = 2 + 1 from rfl]
  rw [normalizeBlankRunsF_cons, if_neg hyn]
  rw [normalizeBlankRunsF_nil]

/-- Witness for C9 (amended) at concrete inputs for each clause. -/
theorem C9_cleanup_amended_witness :
    joinHyphenBreaks ['a', 'b', '-', '\n', 'c', 'd'] = ['a', 'b', 'c', 'd'] ∧
    collapseNewlines ['p', '\n', 'q'] = ['p', ' ', 'q'] ∧
    collapseNewlines ['p', '\n', '\n', 'q'] = ['p', ' ', ' ', 'q'] ∧
    normalizeBlankRuns ['\n', ' ', '\n'] = ['\n', '\n'] ∧
    stripSlashX ['a', 'X', 'b', '/'] =
      List.filter (fun c => decide (c ≠ '/' ∧ c ≠ 'X')) ['a', 'X', 'b', '/'] ∧
    stripUEscapes ['a', '\\', 'u', '0', '0', 'z'] = ['a', ' ', 'z'] := by
  have h := C9_cleanup_amended
  exact ⟨h.1 ['a', 'b'] ['c', 'd'] (by decide) (by decide) (by decide) (by decide),
    (h.2.1 'p' 'q' (by decide) (by decide)).1,
    (h.2.1 'p' 'q' (by decide) (by decide)).2.1,
    h.2.2.1 [' '] (by decide),
    h.2.2.2.1 ['a', 'X', 'b', '/'],
    h.2.2.2.2 ['a'] ['0', '0'] ['z'] (by decide) (by decide) (by decide) (by decide)
      (by decide)⟩

/-- Witness for C10 (amended): a duplicate-free priority list on a
three-tag input over budget in both dimensions. -/
theorem C10_limit_metadata_amended_witness :
    limit_metadata (MLCfg.mk 2 24 ["b"])
        (limit_metadata (MLCfg.mk 2 24 ["b"])
          [("a", "xxxxxxxxxxxxxxxxxxxx"), ("b", "yyyyyyyyyy"), ("c", "z")]) =
      limit_metadata (MLCfg.mk 2 24 ["b"])
        [("a", "xxxxxxxxxxxxxxxxxxxx"), ("b", "yyyyyyyyyy"), ("c", "z")] :=
  C10_limit_metadata_amended (MLCfg.mk 2 24 ["b"])
    [("a", "xxxxxxxxxxxxxxxxxxxx"), ("b", "yyyyyyyyyy"), ("c", "z")]
    (by decide) (by decide)

end SpecV
